import Mathlib

/-!
Shallow embedding of `hypersearch.py` (tforce_btc_trader): the hyperparameter
schema, the flatten/hydrate pipeline (`HSearchEnv.get_hypers` / `get_winner`),
the dotted-path store (`DotDict`), the vector codec (`hypers2vec` /
`vec2hypers`), the GP bounds table of `main_gp`, the pre-fit jitter step, and
`boost_optimization`'s list effects.

Modelling conventions:
* Python numbers are exact rationals (`Val.num`).  The source's floats are
  idealized to exact arithmetic; `10 ** -x` for a non-integer `x` is kept
  exactly as the symbolic value `Val.pow10 (-x)` (the real number `10^(-x)`),
  with exact decidable order comparisons against rationals.
* Python exceptions are `Except String`; the message names the offending key
  for `KeyError` as CPython does.
* Python dicts are association lists in insertion order: overwriting a key
  keeps its position, new keys append (CPython semantics).
* The opaque network object built by `custom_net` is the marker
  `Val.netspec`; the `custom` tree it is built from is returned in its place.
-/

set_option maxHeartbeats 1000000

namespace Hypersearch

/-- A Python runtime value as it occurs in this program: a number (exact
rational), the exact positive real `10^e` for a non-integer exponent `e`
(a Python float in the source), a string, a boolean, `None`, or the opaque
network object produced by `custom_net`. -/
inductive Val where
  | num (q : ℚ)
  | pow10 (e : ℚ)
  | str (s : String)
  | bool (b : Bool)
  | none
  | netspec
  deriving DecidableEq, Repr

/-- Python truthiness of a modelled value (`bool(v)`): `10^e` is never zero. -/
def truthy : Val → Bool
  | .num q => decide (q ≠ 0)
  | .pow10 _ => true
  | .str s => decide (s ≠ "")
  | .bool b => b
  | .none => false
  | .netspec => true

/-- `10 ** e` exactly: a rational when `e` is an integer, else the symbolic
exact real `Val.pow10 e`. -/
def mkPow10 (e : ℚ) : Val :=
  if e.den = 1 then .num ((10 : ℚ) ^ e.num) else .pow10 e

/-- Exact decision of `v > q` for a numeric modelled value `v` and rational
`q`; `TypeError` for non-numeric `v`, as Python's `>` raises.  For
`v = 10^(p/d)` (with `d = e.den > 0`): `10^(p/d) > q ↔ q ≤ 0 ∨ q^d < 10^p`,
by positivity and strict monotonicity of `x ↦ x^d` on positives. -/
def valGtQ : Val → ℚ → Except String Bool
  | .num a, q => .ok (decide (q < a))
  | .bool b, q => .ok (decide (q < (if b then (1 : ℚ) else 0)))
  | .pow10 e, q => .ok (decide (q ≤ 0) || decide (q ^ e.den < (10 : ℚ) ^ e.num))
  | _, _ => .error "TypeError: unorderable"

/-- Python's 1-argument `round` (banker's rounding, round-half-to-even). -/
def bround (q : ℚ) : ℤ :=
  let f := ⌊q⌋
  let r := q - (f : ℚ)
  if r < 1/2 then f
  else if 1/2 < r then f + 1
  else if 2 ∣ f then f else f + 1

/-! ## Python dicts as association lists (insertion order preserved) -/

/-- `d[k]` lookup: first (unique) binding of `k`. -/
def alookup {α : Type} (k : String) : List (String × α) → Option α
  | [] => Option.none
  | (k', v) :: t => if k' = k then some v else alookup k t

/-- `d[k] = v`: overwrite in place, else append (CPython dict semantics). -/
def ainsert {α : Type} (k : String) (v : α) : List (String × α) → List (String × α)
  | [] => [(k, v)]
  | (k', v') :: t => if k' = k then (k, v) :: t else (k', v') :: ainsert k v t

/-- `base.update(upd)`: insert `upd`'s bindings left to right. -/
def aupdate {α : Type} (base upd : List (String × α)) : List (String × α) :=
  upd.foldl (fun acc p => ainsert p.1 p.2 acc) base

/-- `k in d`. -/
def amem {α : Type} (k : String) (m : List (String × α)) : Bool :=
  (alookup k m).isSome

/-! ## `DotDict`: the nested-path store -/

/-- A nested Python dict-of-dicts with scalar leaves. -/
inductive Tree where
  | leaf (v : Val)
  | node (m : List (String × Tree))

/-- `str.split(sep)` for a one-character separator, on the char list: split
on every separator, empty segments kept. -/
def splitCharList (sep : Char) : List Char → List String
  | [] => [""]
  | c :: t =>
    match splitCharList sep t, decide (c = sep) with
    | r, true => "" :: r
    | [], false => [String.mk [c]]
    | h :: t', false => String.mk (c :: h.data) :: t'

/-- `str.split('.')` (Python). -/
def splitDot (s : String) : List String := splitCharList '.' s.data

/-- `DotDict.__setitem__` body, on the split path: walk components; the last
one assigns; an existing intermediate mapping is entered; an absent one is
created as `{}`.  An existing intermediate that is NOT a mapping makes the
descent raise `TypeError` (Python: `k in v` / `v[k] = val` on a non-dict). -/
def setPath (val : Tree) : List String → List (String × Tree) → Except String (List (String × Tree))
  | [], _ => .error "TypeError: empty path"
  | [k], m => .ok (ainsert k val m)
  | k :: k2 :: rest, m =>
    match alookup k m with
    | some (.node m') =>
        (setPath val (k2 :: rest) m').map (fun m'' => ainsert k (.node m'') m)
    | some (.leaf _) => .error "TypeError: descent through non-mapping"
    | Option.none =>
        (setPath val (k2 :: rest) []).map (fun m'' => ainsert k (.node m'') m)

/-- `DotDict.__setitem__` (`d[path] = val` with a dot-separated `path`). -/
def dotSet (m : List (String × Tree)) (path : String) (val : Tree) :
    Except String (List (String × Tree)) :=
  setPath val (splitDot path) m

/-- Pure observer (not in the source): the subtree at a split path, `none`
when a component is absent or an intermediate is a leaf. -/
def treeGetPath : List String → List (String × Tree) → Option Tree
  | [], _ => Option.none
  | [k], m => alookup k m
  | k :: k2 :: rest, m =>
    match alookup k m with
    | some (.node m') => treeGetPath (k2 :: rest) m'
    | _ => Option.none

/-- Observer on a dotted key. -/
def treeGet (m : List (String × Tree)) (path : String) : Option Tree :=
  treeGetPath (splitDot path) m

/-! ## The hyper schema (merged `ppo_agent` + `custom` + `net.type` + `conv2d`) -/

/-- Kind of a parameter: the source's `'bounded'`, `'int'` (choose one of a
list) and `'bool'`. -/
inductive HKind where
  | bounded
  | categorical
  | boolean
  deriving DecidableEq, Repr

/-- `pre` hooks occurring in the merged conv2d schema (only `round`). -/
inductive PreHook where
  | pround
  deriving DecidableEq, Repr

/-- `post` hooks occurring in the schema (only `gae_lambda`'s lambda). -/
inductive PostHook where
  | gaePost
  deriving DecidableEq, Repr

/-- `hydrate` hooks occurring in the schema. -/
inductive HydHook where
  | twoToThe
  | tenToTheNeg
  | minTenNeg (thresh : ℚ) (fb : Val)
  | minThresh (thresh : ℚ) (fb : Val)
  | hydBaseline
  deriving DecidableEq, Repr

/-- One `key: {type, vals, guess, pre/post/hydrate}` entry.  `vals` for a
`bool` spec is `[0, 1]`, filled in by the source's post-merge fix-up pass. -/
structure SpecDef where
  kind : HKind
  vals : List Val
  guess : Val
  preH : Option PreHook
  postH : Option PostHook
  hydH : Option HydHook
  deriving DecidableEq, Repr

/-- A schema binding: a hard-coded literal value, or a ParameterSpec. -/
inductive Hyper where
  | lit (v : Val)
  | spec (s : SpecDef)
  deriving DecidableEq, Repr

abbrev Flat := List (String × Val)
abbrev TreeMap := List (String × Tree)

def mkB (lo hi g : ℚ) (p : Option PreHook) (po : Option PostHook) (h : Option HydHook) : Hyper :=
  .spec ⟨.bounded, [.num lo, .num hi], .num g, p, po, h⟩

def mkBool (g : Bool) (h : Option HydHook) : Hyper :=
  .spec ⟨.boolean, [.num 0, .num 1], .bool g, Option.none, Option.none, h⟩

def mkCat (vals : List String) (g : String) : Hyper :=
  .spec ⟨.categorical, vals.map .str, .str g, Option.none, Option.none, Option.none⟩

/-- `HSearchEnv(agent='ppo_agent', net_type='conv2d').hypers`: the ppo_agent
section (with `optimizer.*` re-keyed to `step_optimizer.*`, appended last as
`dict.pop` + re-insert does), then `custom`, then the hard-coded
`net.type = 'conv2d'`, then the `conv2d` section — in dict insertion order. -/
def hypersAll : List (String × Hyper) :=
  [("batch_size", mkB 3 11 10 (some .pround) Option.none (some .twoToThe)),
   ("keep_last_timestep", mkBool true Option.none),
   ("optimization_steps", mkB 1 30 10 (some .pround) Option.none Option.none),
   ("discount", mkB (9/10) (99/100) (99/100) Option.none Option.none Option.none),
   ("entropy_regularization", mkB 0 5 2 Option.none Option.none (some (.minTenNeg (1/10000) (.num 0)))),
   ("baseline_mode", mkBool true (some .hydBaseline)),
   ("gae_lambda", mkB (4/5) 1 (19/20) Option.none (some .gaePost) Option.none),
   ("likelihood_ratio_clipping", mkB 0 1 (1/5) Option.none Option.none (some (.minThresh (1/20) .none))),
   ("step_optimizer.learning_rate", mkB 0 8 (13/2) Option.none Option.none (some .tenToTheNeg)),
   ("step_optimizer.type", mkCat ["nadam", "adam"] "adam"),
   ("indicators", mkBool true Option.none),
   ("net.depth_mid", mkB 1 3 3 (some .pround) Option.none Option.none),
   ("net.depth_post", mkB 1 3 2 (some .pround) Option.none Option.none),
   ("net.width", mkB 3 9 6 (some .pround) Option.none (some .twoToThe)),
   ("net.funnel", mkBool true Option.none),
   ("net.activation", mkCat ["tanh", "relu"] "tanh"),
   ("net.dropout", mkB 0 (1/2) (1/1000) Option.none Option.none (some (.minThresh (1/10) .none))),
   ("net.l2", mkB 0 7 7 Option.none Option.none (some (.minTenNeg (1/1000000) (.num 0)))),
   ("net.l1", mkB 0 7 3 Option.none Option.none (some (.minTenNeg (1/1000000) (.num 0)))),
   ("pct_change", mkBool false Option.none),
   ("unimodal", mkBool false Option.none),
   ("scale", mkBool true Option.none),
   ("punish_repeats", mkBool false Option.none),
   ("arbitrage", mkBool true Option.none),
   ("net.type", .lit (.str "conv2d")),
   ("net.window", mkB 1 3 2 (some .pround) Option.none Option.none),
   ("net.stride", mkB 1 3 3 (some .pround) Option.none Option.none),
   ("step_window", mkB 100 400 200 (some .pround) Option.none Option.none)]

/-- Keys of the global `hypers['ppo_agent']` section: `get_hypers` routes a
flat key into `main` exactly when `k in hypers[self.agent]`. -/
def ppoKeys : List String :=
  ["batch_size", "keep_last_timestep", "optimization_steps", "discount",
   "entropy_regularization", "baseline_mode", "gae_lambda",
   "likelihood_ratio_clipping", "step_optimizer.learning_rate",
   "step_optimizer.type"]

/-- `self.hardcoded`: the literal-valued entries of the merged schema. -/
def hardcodedBase : Flat := [("net.type", .str "conv2d")]

/-! ## Transform hooks -/

def keyErr (k : String) : String := "KeyError: " ++ k

/-- `flat[k]` with Python's `KeyError`. -/
def flatGet (flat : Flat) (k : String) : Except String Val :=
  match alookup k flat with
  | some v => .ok v
  | Option.none => .error (keyErr k)

/-- Python `round(v)` (1-argument): banker's rounding on a number; `True` and
`False` are ints `1`/`0`; anything else raises `TypeError`. -/
def pyRound : Val → Except String Val
  | .num q => .ok (.num (bround q))
  | .bool b => .ok (.num (if b then 1 else 0))
  | _ => .error "TypeError: round"

/-- `two_to_the(x, _) = 2**x`.  After the `pre=round` hook its argument is an
integer; a non-integer rational exponent would be an irrational float, outside
the exact value model, and is mapped to an error. -/
def twoToThe : Val → Except String Val
  | .num q => if q.den = 1 then .ok (.num ((2 : ℚ) ^ q.num)) else .error "irrational power"
  | .bool b => .ok (.num (if b then 2 else 1))
  | _ => .error "TypeError: pow"

/-- `10 ** -x`, exactly (symbolic for non-integer `x`). -/
def negPow10OfVal : Val → Except String Val
  | .num q => .ok (mkPow10 (-q))
  | .bool b => .ok (mkPow10 (-(if b then (1 : ℚ) else 0)))
  | _ => .error "TypeError: pow"

/-- `ten_to_the_neg(x, _) = 10**-x`. -/
def tenToTheNeg (x : Val) : Except String Val := negPow10OfVal x

/-- `min_threshold(thresh, fallback)` applied to `x`:
`x if (x and x > thresh) else fallback` — short-circuit, so a falsy `x` never
reaches the comparison. -/
def minThreshold (thresh : ℚ) (fb : Val) (x : Val) : Except String Val :=
  if truthy x then
    (valGtQ x thresh).map (fun b => if b then x else fb)
  else .ok fb

/-- `min_ten_neg(thresh, fallback)` applied to `x`:
`min_threshold(thresh, fallback)(ten_to_the_neg(x, _), _)`. -/
def minTenNegHook (thresh : ℚ) (fb : Val) (x : Val) : Except String Val := do
  let y ← tenToTheNeg x
  minThreshold thresh fb y

/-- `gae_lambda`'s `post` hook:
`lambda x, others: x if (x and x > .9 and others['baseline_mode']) else None`.
Short-circuit `and`: a falsy `x` yields `None` without comparing; `x > .9`
true makes the condition's value `others['baseline_mode']` (raising `KeyError`
when absent). -/
def gaeLambdaPost (x : Val) (flat : Flat) : Except String Val :=
  if truthy x then do
    let gt ← valGtQ x (9/10)
    if gt then do
      let bm ← flatGet flat "baseline_mode"
      .ok (if truthy bm then x else .none)
    else .ok .none
  else .ok .none

/-- Result of a `hydrate` hook: `obj.update(v)` when a dict, else `obj[k] = v`. -/
inductive HyRes where
  | scalar (v : Val)
  | tree (m : TreeMap)

/-- The `{False: ..., True: ...}[x]` selection of `hydrate_baseline`: boolean
dict-key equality (`0 == False`, `1 == True`), `KeyError` otherwise. -/
def baselineSelector : Val → Except String Bool
  | .bool b => .ok b
  | .num q =>
      if q = 0 then .ok false
      else if q = 1 then .ok true
      else .error "KeyError: dict selector"
  | _ => .error "KeyError: dict selector"

/-- `hydrate_baseline(x, flat)`.  The Python dict display evaluates BOTH
branches before the `[x]` lookup, so the `flat[...]` reads happen (and can
raise) regardless of `x`; then `[x]` selects by boolean dict-key equality. -/
def hydrateBaseline (x : Val) (flat : Flat) : Except String HyRes := do
  let steps ← flatGet flat "optimization_steps"
  let otype ← flatGet flat "step_optimizer.type"
  let lr ← flatGet flat "step_optimizer.learning_rate"
  let lr' ← negPow10OfVal lr
  let b ← baselineSelector x
  if b then
    .ok (.tree
      [("baseline", .node [("type", .leaf (.str "custom"))]),
       ("baseline_mode", .leaf (.str "states")),
       ("baseline_optimizer", .node
         [("type", .leaf (.str "multi_step")),
          ("num_steps", .leaf steps),
          ("optimizer", .node
            [("type", .leaf otype), ("learning_rate", .leaf lr')])])])
  else .ok (.tree [("baseline_mode", .leaf .none)])

def evalPre : PreHook → Val → Except String Val
  | .pround, v => pyRound v

def evalPost : PostHook → Val → Flat → Except String Val
  | .gaePost, v, flat => gaeLambdaPost v flat

def evalHyd : HydHook → Val → Flat → Except String HyRes
  | .twoToThe, v, _ => (twoToThe v).map .scalar
  | .tenToTheNeg, v, _ => (tenToTheNeg v).map .scalar
  | .minTenNeg th fb, v, _ => (minTenNegHook th fb v).map .scalar
  | .minThresh th fb, v, _ => (minThreshold th fb v).map .scalar
  | .hydBaseline, v, flat => hydrateBaseline v flat

/-! ## `HSearchEnv.get_hypers`: the flatten/hydrate pipeline -/

/-- `self.hypers[k]` plus the `'pre' in hyper` membership test: `none` when
the key is missing from the schema (`KeyError`), `some Option.none` for a
literal entry (the substring test `'pre' in 'conv2d'` is False) or a spec
without a `pre` hook, `some (some p)` for a spec with hook `p`. -/
def preHookFor (k : String) : Option (Option PreHook) :=
  match alookup k hypersAll with
  | Option.none => Option.none
  | some (.lit _) => some Option.none
  | some (.spec s) => some s.preH

/-- Pre-phase step for one `actions` item `(k, v)`: `self.hypers[k]` raises
`KeyError` for a key missing from the schema; otherwise the `pre` hook is
applied when present.  (`v.item()` is identity-or-caught and drops out.) -/
def preStep (st : Flat) (kv : String × Val) : Except String Flat :=
  match preHookFor kv.1 with
  | Option.none => .error (keyErr kv.1)
  | some Option.none => .ok (ainsert kv.1 kv.2 st)
  | some (some p) => (evalPre p kv.2).map (fun v' => ainsert kv.1 v' st)

def prePhase (actions : Flat) : Except String Flat :=
  actions.foldlM preStep []

/-- `self.hypers[k]` with the `type(hyper) == dict and 'post' in hyper` test:
`none` for a missing key, `some Option.none` when no `post` hook applies,
`some (some p)` for a spec with post hook `p`. -/
def postHookFor (k : String) : Option (Option PostHook) :=
  match alookup k hypersAll with
  | Option.none => Option.none
  | some (.lit _) => some Option.none
  | some (.spec s) => some s.postH

/-- Post-phase step for key `k`: `hyper = self.hypers[k]`; only a spec dict
with a `post` hook rewrites `flat[k] = post(v, flat)`, reading the CURRENT
value (the iteration sees earlier rewrites). -/
def postStep (st : Flat) (k : String) : Except String Flat :=
  match postHookFor k with
  | Option.none => .error (keyErr k)
  | some Option.none => .ok st
  | some (some p) =>
    match alookup k st with
    | Option.none => .error (keyErr k)
    | some v => (evalPost p v st).map (fun v' => ainsert k v' st)

def postPhase (flat : Flat) : Except String Flat :=
  (flat.map Prod.fst).foldlM postStep flat

/-- `self.hypers[k]['hydrate']` inside the hydrate `try`: a literal entry
(`TypeError`) or a spec without a hook (`KeyError`) is caught by the bare
`except`, i.e. behaves as "no hook". -/
def hydHookOf (k : String) : Option HydHook :=
  match alookup k hypersAll with
  | some (.spec s) => s.hydH
  | _ => Option.none

/-- What the hydrate `try`/`except` of one flat item resolves to: the hook's
result when it exists and succeeds, else the raw scalar `v` (covering both "no
hook" — `TypeError`/`KeyError` on `self.hypers[k]['hydrate']` — and a raising
hook, all absorbed by the bare `except`). -/
def hydWritten (flat : Flat) (kv : String × Val) : HyRes :=
  match hydHookOf kv.1 with
  | Option.none => .scalar kv.2
  | some h =>
    match evalHyd h kv.2 flat with
    | .error _ => .scalar kv.2
    | .ok r => r

/-- Hydrate-phase step for one flat item `(k, v)`: route to `main` when
`k in hypers['ppo_agent']` else `custom`; a scalar result is written at the
dotted path `k`, a dict result is merged by top-level `dict.update`.  A
`DotDict` path error is not recovered: the `except` clause's own `obj[k] = v`
fails the same way, so the error propagates. -/
def hydStep (flat : Flat) (st : TreeMap × TreeMap) (kv : String × Val) :
    Except String (TreeMap × TreeMap) :=
  (match hydWritten flat kv with
   | .scalar s => dotSet (if kv.1 ∈ ppoKeys then st.1 else st.2) kv.1 (.leaf s)
   | .tree t => .ok (aupdate (if kv.1 ∈ ppoKeys then st.1 else st.2) t)).map
    (fun m => if kv.1 ∈ ppoKeys then (m, st.2) else (st.1, m))

def hydPhase (flat : Flat) : Except String (TreeMap × TreeMap) :=
  flat.foldlM (hydStep flat) ([], [])

/-- Lines 478–482: `if flat['baseline_mode']:` (a `KeyError` when absent); the
inner `type(self.hypers['baseline_mode']) == bool` test is False in this env
(the schema binds a spec dict), so only
`main['baseline']['network_spec'] = custom_net(custom, baseline=True)` runs:
plain-dict indexing that raises when `'baseline'` is absent or not a dict. -/
def baselineStep (flat : Flat) (main : TreeMap) : Except String TreeMap := do
  let bm ← flatGet flat "baseline_mode"
  if truthy bm then
    match alookup "baseline" main with
    | some (.node b) =>
        .ok (ainsert "baseline" (.node (ainsert "network_spec" (.leaf .netspec) b)) main)
    | some (.leaf _) => .error "TypeError: non-mapping baseline"
    | Option.none => .error (keyErr "baseline")
  else .ok main

/-- The triple `get_hypers` returns; the opaque `network` is the `custom`
tree it is built from (see the module comment). -/
structure GHOut where
  flat : Flat
  main : TreeMap
  custom : TreeMap

/-- `get_hypers(actions)` with `self.hardcoded = hardcoded`: pre-phase over
`actions`, `flat.update(self.hardcoded)`, post-phase, hydrate-phase, baseline
block, `main['session_config'] = None` (gpu_split == 1). -/
def getHypersFrom (hardcoded : Flat) (actions : Flat) : Except String GHOut := do
  let f0 ← prePhase actions
  let f1 := aupdate f0 hardcoded
  let flat ← postPhase f1
  let mc ← hydPhase flat
  let mn ← baselineStep flat mc.1
  .ok ⟨flat, ainsert "session_config" (.leaf .none) mn, mc.2⟩

/-- `HSearchEnv.get_hypers` on a fresh env (default `hardcoded`). -/
def getHypers (actions : Flat) : Except String GHOut :=
  getHypersFrom hardcodedBase actions

/-- The winner record `get_winner` constructs with no stored id:
`{k: v['guess'] for k, v in self.hypers.items() if k not in self.hardcoded}`
then `winner.update(self.hardcoded)`. -/
def winnerFlat : Flat :=
  aupdate
    (hypersAll.foldl (fun acc kv =>
      match kv.2 with
      | .lit _ => acc
      | .spec s => ainsert kv.1 s.guess acc) [])
    hardcodedBase

/-- `get_winner()` with no id: sets `self.hardcoded = winner` and calls
`self.get_hypers({})`. -/
def getWinner : Except String GHOut := getHypersFrom winnerFlat []

/-! ## The vector codec of `main_gp` (`DictVectorizer` + `hypers2vec` / `vec2hypers`) -/

/-- `hardcoded` keys of the env `main_gp` instantiates. -/
def hardcodedKeys : List String := ["net.type"]

/-- `hypers_` after `main_gp`'s filter: the non-hardcoded schema entries. -/
def hypersNH : List (String × Hyper) :=
  hypersAll.filter (fun kv => decide (kv.1 ∉ hardcodedKeys))

/-- `('=' in k, k.split('=')[0], k.split('=')[1])`: `some (attr, val)` when the
name contains `'='`, with the first two split segments. -/
def eqSplit (n : String) : Option (String × String) :=
  match splitCharList '=' n.data with
  | a :: b :: _ => some (a, b)
  | _ => Option.none

/-- `s.startswith(p)` on char lists. -/
def charStartsWith : List Char → List Char → Bool
  | [], _ => true
  | _ :: _, [] => false
  | p :: ps, c :: cs => decide (p = c) && charStartsWith ps cs

/-- The fitted, sorted `DictVectorizer` feature names for this schema: one
numeric slot per `bounded`/`bool` spec (their synthetic sample values are
numbers), one `key=value` one-hot slot per declared option of each
string-valued `'int'` spec, sorted lexicographically.  (Every `vals` list has
length 2, so the forward-fill padding of the synthetic sample is a no-op and
the observed values are exactly the declared domains.) -/
def featNames : List String :=
  ["arbitrage", "baseline_mode", "batch_size", "discount", "entropy_regularization",
   "gae_lambda", "indicators", "keep_last_timestep", "likelihood_ratio_clipping",
   "net.activation=relu", "net.activation=tanh", "net.depth_mid", "net.depth_post",
   "net.dropout", "net.funnel", "net.l1", "net.l2", "net.stride", "net.width",
   "net.window", "optimization_steps", "pct_change", "punish_repeats", "scale",
   "step_optimizer.learning_rate", "step_optimizer.type=adam",
   "step_optimizer.type=nadam", "step_window", "unimodal"]

/-- The feature names a schema entry contributes to the vectorizer fit. -/
def featOf (kv : String × Hyper) : List String :=
  match kv.2 with
  | .lit _ => []
  | .spec s =>
    match s.kind with
    | .categorical => s.vals.filterMap (fun v =>
        match v with
        | .str sv => some (kv.1 ++ "=" ++ sv)
        | _ => Option.none)
    | _ => [kv.1]

/-- `hypers2vec`'s value coercion: bools to `0.`/`1.` floats, `v or 0.`
otherwise (falsy values become `0.`). -/
def pyCoerce : Val → Val
  | .bool b => .num (if b then 1 else 0)
  | v => if truthy v then v else .num 0

/-- One step of `hypers2vec`'s dict build: skip hardcoded keys. -/
def h2vStep (h : Flat) (kv : String × Val) : Flat :=
  if kv.1 ∈ hardcodedKeys then h else ainsert kv.1 (pyCoerce kv.2) h

/-- `hypers2vec`'s dict build. -/
def hypers2vecDict (obj : Flat) : Flat :=
  obj.foldl h2vStep []

/-- One slot of `vectorizer.transform(h)`: a one-hot feature `attr=val` is `1`
iff `h[attr]` is the string `val`; a numeric feature takes `h[k]`'s number;
anything absent or of the wrong shape contributes `0`. -/
def slotVal (h : Flat) (n : String) : ℚ :=
  match eqSplit n with
  | some (attr, val) =>
    match alookup attr h with
    | some (.str s) => if s = val then 1 else 0
    | _ => 0
  | Option.none =>
    match alookup n h with
    | some (.num q) => q
    | _ => 0

abbrev NamedVec := List (String × ℚ)

/-- `hypers2vec(obj)`: the feature vector, tagged with its feature names. -/
def hypers2vec (obj : Flat) : NamedVec :=
  featNames.map (fun n => (n, slotVal (hypers2vecDict obj) n))

/-- The inner winner scan of `vec2hypers`:
`if k2.startswith(attr + '=') and score2 > score: score, val = ...`. -/
def argmaxStep (attr : String) (acc : ℚ × String) (e : String × ℚ) : ℚ × String :=
  if charStartsWith (attr.data ++ ['=']) e.1.data && decide (acc.1 < e.2) then
    (e.2, ((eqSplit e.1).map Prod.snd).getD "")
  else acc

/-- One outer step of `vec2hypers` over a nonzero entry: a plain name binds
its number; a `attr=val` name re-derives the arg-max winner for `attr` over
the whole nonzero list (the source's `if k in obj: continue` dedup test checks
the full `attr=val` string against `obj`'s attr keys, so it never fires and is
kept here verbatim). -/
def outerStep (rev : NamedVec) (obj : Flat) (e : String × ℚ) : Flat :=
  match eqSplit e.1 with
  | Option.none => ainsert e.1 (.num e.2) obj
  | some (attr, val) =>
    if amem e.1 obj then obj
    else
      let w := rev.foldl (argmaxStep attr) (e.2, val)
      ainsert attr (.str w.2) obj

/-- `bool(round(obj.get(k, 0.)))`: the value the bool pass writes.  A
non-numeric value at a bool key cannot arise (one-hot attrs are disjoint from
bool keys); it is read as `0`. -/
def bpVal (o : Flat) (k : String) : Val :=
  .bool (decide (bround (match alookup k o with
    | some (.num q) => q
    | _ => 0) ≠ 0))

/-- Whether a schema binding is a `bool`-kind spec. -/
def isBoolEntry : Hyper → Bool
  | .spec s => decide (s.kind = .boolean)
  | .lit _ => false

/-- One step of the trailing bool pass. -/
def bpStep (o : Flat) (kv : String × Hyper) : Flat :=
  if isBoolEntry kv.2 then ainsert kv.1 (bpVal o kv.1) o else o

/-- The trailing bool pass: for every `bool`-kind spec,
`obj[k] = bool(round(obj.get(k, 0.)))` (an explicit `False` even when the
slot was absent). -/
def boolPass (obj : Flat) : Flat :=
  hypersNH.foldl bpStep obj

/-- `vec2hypers(vec)`: `inverse_transform` keeps the nonzero entries; then the
outer reconstruction; then the bool pass. -/
def vec2hypers (vec : NamedVec) : Flat :=
  let rev := vec.filter (fun e => decide (e.2 ≠ 0))
  boolPass (rev.foldl (outerStep rev) [])

/-! ## The bounds table of `main_gp` -/

/-- Python `<` on two values: numbers or strings (the `vals` lists are
homogeneous); anything else is unorderable. -/
def pyLtVal : Val → Val → Except String Bool
  | .num a, .num b => .ok (decide (a < b))
  | .str a, .str b => .ok (decide (a < b))
  | _, _ => .error "TypeError: unorderable"

/-- Python `min(l)` (fold with `<` from the head). -/
def pyMin : List Val → Except String Val
  | [] => .error "ValueError: min of empty"
  | h :: t => t.foldlM (fun acc v => (pyLtVal v acc).map (fun b => if b then v else acc)) h

/-- Python `max(l)`. -/
def pyMax : List Val → Except String Val
  | [] => .error "ValueError: max of empty"
  | h :: t => t.foldlM (fun acc v => (pyLtVal acc v).map (fun b => if b then v else acc)) h

/-- The `main_gp` bounds loop.  `bounded, min_, max_` are assigned ONLY when
the feature name is a key of `hypers_`; for a one-hot name
(`hypers_.get(k, False)` falsy) the previous iteration's values are reused
(`NameError` if there is no previous assignment).  Each bound is
`[min_, max_] if bounded else [0, 1]`. -/
def boundsLoop : Option (Bool × Val × Val) → List String → Except String (List (Val × Val))
  | _, [] => .ok []
  | st, n :: rest =>
    match alookup n hypersNH with
    | some (.spec s) =>
      (do
        let mn ← pyMin s.vals
        let mx ← pyMax s.vals
        let bdd := decide (s.kind = .bounded)
        let b := if bdd then (mn, mx) else (Val.num 0, Val.num 1)
        (boundsLoop (some (bdd, mn, mx)) rest).map (b :: ·))
    | _ =>
      match st with
      | Option.none => .error "NameError: name accessed before assignment"
      | some (bdd, mn, mx) =>
        let b := if bdd then (mn, mx) else (Val.num 0, Val.num 1)
        (boundsLoop st rest).map (b :: ·)

/-- The `bounds` list `main_gp` hands the optimizers. -/
def gpBounds : Except String (List (Val × Val)) := boundsLoop Option.none featNames

/-! ## Pre-fit jitter and `boost_optimization` list effects -/

/-- One coordinate of the pre-fit jitter: `x[i] += np.random.random() * 1e-6`,
with `r` the draw from `[0, 1)`. -/
def jitterCoord (x r : ℚ) : ℚ := x + r * (1/1000000)

/-- The jitter pass over one historical vector, given its random draws. -/
def jitterVec (x r : List ℚ) : List ℚ := List.zipWith jitterCoord x r

/-- A `y_list` entry `[score]`; `none` models the guess marker `[None]`. -/
abbrev ScoreE := Option ℚ

/-- The guess-overwrite loop of `boost_optimization`: a `[None]` entry at
index `i` becomes `loss_fn(x_list[i])`; `x_list[i]` raises `IndexError` when
`x_list` is shorter. -/
def boostYs (f : List ℚ → ℚ) : List (List ℚ) → List ScoreE → Except String (List ScoreE)
  | _, [] => .ok []
  | x :: xs, y :: ys =>
    (boostYs f xs ys).map
      ((match y with | Option.none => some (f x) | some s => some s) :: ·)
  | [], some s :: ys => (boostYs f [] ys).map (some s :: ·)
  | [], Option.none :: _ => .error "IndexError: list index out of range"

/-- The `x_list`/`y_list` effects of `boost_optimization` with the default
`n_pre_samples = 5`: overwrite `[None]` y-entries, then append
`max(0, 5 - len(x_list))` uniformly drawn pre-sample vectors (the head of the
externalized `draws` stream) and their scores.  The million-sample arg-max
loop and the final `loss_fn(best_params)` never touch the lists. -/
def boostOptimizationLists (f : List ℚ → ℚ) (draws : List (List ℚ))
    (xs : List (List ℚ)) (ys : List ScoreE) :
    Except String (List (List ℚ) × List ScoreE) := do
  let ys1 ← boostYs f xs ys
  let newDraws := draws.take (5 - xs.length)
  .ok (xs ++ newDraws, ys1 ++ newDraws.map (fun d => some (f d)))

/-! ## Generic dictionary lemmas -/

theorem alookup_ainsert_self {α : Type} (k : String) (v : α) (m : List (String × α)) :
    alookup k (ainsert k v m) = some v := by
  induction m with
  | nil => simp [ainsert, alookup]
  | cons e t ih =>
    obtain ⟨e1, e2⟩ := e
    by_cases hk : e1 = k
    · subst hk
      simp [ainsert, alookup]
    · simp [ainsert, hk, alookup, ih]

theorem alookup_ainsert_ne {α : Type} (j k : String) (v : α) (m : List (String × α))
    (h : j ≠ k) : alookup j (ainsert k v m) = alookup j m := by
  have hkj : k ≠ j := Ne.symm h
  induction m with
  | nil => simp [ainsert, alookup, hkj]
  | cons e t ih =>
    obtain ⟨e1, e2⟩ := e
    by_cases hk : e1 = k
    · subst hk
      simp [ainsert, alookup, hkj]
    · simp [ainsert, hk, alookup, ih]

theorem alookup_aupdate_notin {α : Type} (j : String) (m t : List (String × α))
    (h : ∀ key ∈ t.map Prod.fst, key ≠ j) :
    alookup j (aupdate m t) = alookup j m := by
  induction t generalizing m with
  | nil => rfl
  | cons e t ih =>
    have he : j ≠ e.1 := Ne.symm (h e.1 (by simp))
    have := ih (ainsert e.1 e.2 m) (fun key hk => h key (by simp [hk]))
    simpa [aupdate, alookup_ainsert_ne _ _ _ _ he] using this

/-! ## Claim theorems -/

/-- Strict lexicographic order on char lists (Python string `<`). -/
def charLt : List Char → List Char → Bool
  | [], [] => false
  | [], _ :: _ => true
  | _ :: _, [] => false
  | a :: as, b :: bs => decide (a < b) || (decide (a = b) && charLt as bs)

/-- Strictly-increasing check on a name list. -/
def sortedNames : List String → Bool
  | [] => true
  | [_] => true
  | a :: b :: t => charLt a.data b.data && sortedNames (b :: t)

/-- C1: in the `main_gp` bounds table, a `bounded` spec's slot does get its
declared `[min, max]`, but a one-hot slot gets the STALE `bounded/min_/max_`
carried over from the previous (alphabetically preceding) feature name that
was a real schema key: the one-hot slot `step_optimizer.type=adam` (index 25)
inherits `[0, 8]` from `step_optimizer.learning_rate` instead of the claimed
`[0, 1]`.  This theorem evaluates the bounds loop at that failing slot. -/
theorem C1_bounds_onehot_stale :
    featNames.get? 25 = some "step_optimizer.type=adam" ∧
    (gpBounds.toOption.bind (fun l => l.get? 25)) = some (Val.num 0, Val.num 8) ∧
    (Val.num 0, Val.num 8) ≠ (Val.num 0, Val.num 1) := by
  refine ⟨rfl, by with_unfolding_all rfl, ?_⟩
  exact of_decide_eq_true (by with_unfolding_all rfl)

/-- Supporting fact (not a claim theorem): the hard-coded feature-name list is
a permutation of the names the schema derivation produces, and it is strictly
sorted (what `DictVectorizer`'s sorted fit yields). -/
theorem featNames_matches_schema :
    featNames.Perm (hypersNH.flatMap featOf) ∧ sortedNames featNames = true := by
  constructor
  · decide
  · decide

/-- C5: with an empty `actions` and every non-hardcoded key carrying a
`guess`, `get_winner()` (no stored id) produces exactly
`{k: spec.guess for k in schema non-hardcoded} ∪ hardcoded`: the pipeline's
pre-phase is a no-op on `{}`, the hardcoded merge is the winner record itself,
and the only `post` hook (`gae_lambda`) maps its guess to itself. -/
theorem C5_get_winner_guesses :
    (getWinner).toOption.map GHOut.flat = some winnerFlat ∧
    winnerFlat =
      [("batch_size", .num 10), ("keep_last_timestep", .bool true),
       ("optimization_steps", .num 10), ("discount", .num (99/100)),
       ("entropy_regularization", .num 2), ("baseline_mode", .bool true),
       ("gae_lambda", .num (19/20)), ("likelihood_ratio_clipping", .num (1/5)),
       ("step_optimizer.learning_rate", .num (13/2)),
       ("step_optimizer.type", .str "adam"), ("indicators", .bool true),
       ("net.depth_mid", .num 3), ("net.depth_post", .num 2),
       ("net.width", .num 6), ("net.funnel", .bool true),
       ("net.activation", .str "tanh"), ("net.dropout", .num (1/1000)),
       ("net.l2", .num 7), ("net.l1", .num 3), ("pct_change", .bool false),
       ("unimodal", .bool false), ("scale", .bool true),
       ("punish_repeats", .bool false), ("arbitrage", .bool true),
       ("net.window", .num 2), ("net.stride", .num 3),
       ("step_window", .num 200), ("net.type", .str "conv2d")] := by
  constructor
  · with_unfolding_all rfl
  · with_unfolding_all rfl

/-- The full-actions record used to exercise `get_hypers` directly: every
non-hardcoded key set to its guess (so `net.width` carries the action value
`6.0`). -/
def actionsFull : Flat :=
  hypersNH.foldl (fun acc kv =>
    match kv.2 with
    | .lit _ => acc
    | .spec s => ainsert kv.1 s.guess acc) []

/-- C7: an action value `6.0` for `net.width` (schema: domain `[3,9]`,
`pre=round`, `hydrate=two_to_the`) is persisted in the flat record as the
pre-processed `6` and hydrates to `2**round(6.0) = 64` at the `net.width`
path of the `custom` tree. -/
theorem C7_net_width_hydration :
    (getHypers actionsFull).toOption.map
        (fun r => (alookup "net.width" r.flat, treeGet r.custom "net.width")) =
      some (some (Val.num 6), some (Tree.leaf (Val.num 64))) ∧
    alookup "net.width" actionsFull = some (Val.num 6) := by
  constructor
  · with_unfolding_all rfl
  · with_unfolding_all rfl

/-- C6 counterexample: `DotDict.__setitem__` does NOT overwrite a non-mapping
intermediate with a mapping: on `{'a': 5}`, setting path `'a.b'` raises
`TypeError` (the whole set operation fails) instead of succeeding as the
claim states. -/
theorem C6_cex_set_nonmapping :
    dotSet [("a", Tree.leaf (Val.num 5))] "a.b" (Tree.leaf (Val.num 1)) =
      Except.error "TypeError: descent through non-mapping" := by
  with_unfolding_all rfl

/-- All intermediate components of a (nonempty) path are enterable: an
existing sub-mapping, or absent (a fresh `{}` is created and descent
continues in it); the final component may be anything. -/
def pathClear : List String → List (String × Tree) → Bool
  | [], _ => false
  | [_], _ => true
  | k :: k2 :: rest, m =>
    match alookup k m with
    | some (.node m') => pathClear (k2 :: rest) m'
    | some (.leaf _) => false
    | Option.none => pathClear (k2 :: rest) []

/-- C6 amended: `set` creates intermediate mappings for absent path
components and then succeeds with the value stored at the path; but an
existing non-mapping intermediate is NOT overwritten — descending through it
makes the set operation fail with `TypeError`. -/
theorem C6_amended_set :
    (∀ (ks : List String) (m : List (String × Tree)) (v : Tree),
        pathClear ks m = true →
        ∃ m', setPath v ks m = .ok m' ∧ treeGetPath ks m' = some v) ∧
    (∀ (m : List (String × Tree)) (k k2 : String) (rest : List String) (v : Tree) (w : Val),
        alookup k m = some (.leaf w) →
        setPath v (k :: k2 :: rest) m =
          .error "TypeError: descent through non-mapping") := by
  constructor
  · intro ks
    induction ks with
    | nil => intro m v h; simp [pathClear] at h
    | cons k t ih =>
      intro m v h
      match t with
      | [] =>
        exact ⟨ainsert k v m, rfl, alookup_ainsert_self k v m⟩
      | k2 :: rest =>
        unfold pathClear at h
        cases hl : alookup k m with
        | none =>
          rw [hl] at h
          obtain ⟨m'', hm1, hm2⟩ := ih [] v h
          refine ⟨ainsert k (.node m'') m, ?_, ?_⟩
          · simp [setPath, hl, hm1, Except.map]
          · simp [treeGetPath, alookup_ainsert_self, hm2]
        | some tr =>
          cases tr with
          | leaf w => rw [hl] at h; simp at h
          | node m0 =>
            rw [hl] at h
            obtain ⟨m'', hm1, hm2⟩ := ih m0 v h
            refine ⟨ainsert k (.node m'') m, ?_, ?_⟩
            · simp [setPath, hl, hm1, Except.map]
            · simp [treeGetPath, alookup_ainsert_self, hm2]
  · intro m k k2 rest v w hl
    simp [setPath, hl]

theorem C6_amended_witness :
    (∃ m', setPath (Tree.leaf (Val.num 1)) ["a", "b"] [] = .ok m' ∧
        treeGetPath ["a", "b"] m' = some (Tree.leaf (Val.num 1))) ∧
    setPath (Tree.leaf (Val.num 1)) ["a", "b"] [("a", Tree.leaf (Val.num 5))] =
      .error "TypeError: descent through non-mapping" :=
  ⟨C6_amended_set.1 ["a", "b"] [] (Tree.leaf (Val.num 1)) rfl,
   C6_amended_set.2 [("a", Tree.leaf (Val.num 5))] "a" "b" [] (Tree.leaf (Val.num 1))
     (Val.num 5) (by with_unfolding_all rfl)⟩

/-- C8 counterexample: two identical historical vectors jittered under an
outcome with EQUAL valid draws (0 and 1/2, both in `[0, 1)`, and
`np.random.random()` can return 0.0 and can repeat values) remain identical:
every coordinate-wise difference is `0`, never strictly positive — refuting
"under every outcome of the random draws". -/
theorem C8_cex_equal_draws :
    List.zipWith (fun a b => a - b) (jitterVec [0, 0] [0, 1/2])
        (jitterVec [0, 0] [0, 1/2]) = [0, 0] ∧
    ((0:ℚ) ≤ 0 ∧ (0:ℚ) < 1 ∧ (0:ℚ) ≤ 1/2 ∧ (1/2:ℚ) < 1) := by
  constructor
  · with_unfolding_all rfl
  · refine ⟨le_refl _, by norm_num, by norm_num, by norm_num⟩

/-- C8 amended: with valid draws in `[0, 1)`, the two jittered copies of a
coordinate differ by strictly less than the duplicate-detection tolerance
(any tolerance of at least the `1e-6` jitter scale — the source comment notes
`1e-6 <` gp.py's minimum threshold; gp.py itself is not in the repository, so
the tolerance is spec-modelled as a parameter bounded below by `1e-6`), and
they differ — strictly positively — iff the two draws differ; under an
outcome with equal draws the vectors remain identical. -/
theorem C8_amended_jitter (x r1 r2 tol : ℚ) (h1 : 0 ≤ r1) (h2 : r1 < 1)
    (h3 : 0 ≤ r2) (h4 : r2 < 1) (htol : 1/1000000 ≤ tol) :
    |jitterCoord x r1 - jitterCoord x r2| < tol ∧
    (jitterCoord x r1 = jitterCoord x r2 ↔ r1 = r2) := by
  unfold jitterCoord
  constructor
  · have hd : x + r1 * (1/1000000) - (x + r2 * (1/1000000)) = (r1 - r2) * (1/1000000) := by
      ring
    rw [hd, abs_mul]
    have habs : |r1 - r2| < 1 := abs_sub_lt_iff.mpr ⟨by linarith, by linarith⟩
    have hc : |(1:ℚ)/1000000| = 1/1000000 := by norm_num
    rw [hc]
    calc |r1 - r2| * (1/1000000) < 1 * (1/1000000) := by
          exact mul_lt_mul_of_pos_right habs (by norm_num)
      _ = 1/1000000 := by ring
      _ ≤ tol := htol
  · constructor
    · intro h
      have h' : r1 * (1/1000000) = r2 * (1/1000000) := add_left_cancel h
      exact mul_right_cancel₀ (by norm_num) h'
    · intro h
      rw [h]

theorem C8_amended_witness :
    |jitterCoord 3 0 - jitterCoord 3 (1/2)| < 1/1000000 ∧
    (jitterCoord 3 0 = jitterCoord 3 (1/2) ↔ (0:ℚ) = 1/2) :=
  C8_amended_jitter 3 0 (1/2) (1/1000000) (le_refl 0) (by norm_num) (by norm_num)
    (by norm_num) (le_refl _)

/-- Helper: the guess-overwrite loop leaves a y-list with no `[None]` entry
unchanged, for any `x_list`. -/
theorem boostYs_allSome (f : List ℚ → ℚ) (ys : List ScoreE) (xs : List (List ℚ))
    (h : ∀ y ∈ ys, y ≠ Option.none) : boostYs f xs ys = .ok ys := by
  induction ys generalizing xs with
  | nil => cases xs <;> rfl
  | cons y t ih =>
    have hy : y ≠ Option.none := h y (by simp)
    obtain ⟨s, rfl⟩ : ∃ s, y = some s := by
      cases y
      · exact absurd rfl hy
      · exact ⟨_, rfl⟩
    cases xs with
    | nil => simp [boostYs, Except.map, ih [] (fun z hz => h z (by simp [hz]))]
    | cons x xt => simp [boostYs, Except.map, ih xt (fun z hz => h z (by simp [hz]))]

/-- C10: `boost_optimization` mutates the list objects its caller passes:
a `[None]` y-entry is overwritten with a freshly computed score, and
`5 - len(x_list)` drawn pre-sample vectors are appended together with their
scores.  Because the `x_list`/`y_list` defaults are a single shared mutable
pair of list literals, successive invocations that omit these arguments see
the previous call's entries — modelled by threading the first call's output
lists into the second call: the second call starts from the five accumulated
entries (not from empty lists) and, as `5 - 5 = 0`, appends nothing and
returns them unchanged. -/
theorem C10_boost_mutation (x0 : List ℚ) (f g : List ℚ → ℚ)
    (draws1 draws2 : List (List ℚ)) (h4 : 4 ≤ draws1.length) :
    boostOptimizationLists f draws1 [x0] [Option.none] =
      .ok (x0 :: draws1.take 4,
           some (f x0) :: (draws1.take 4).map (fun d => some (f d))) ∧
    boostOptimizationLists g draws2 (x0 :: draws1.take 4)
        (some (f x0) :: (draws1.take 4).map (fun d => some (f d))) =
      .ok (x0 :: draws1.take 4,
           some (f x0) :: (draws1.take 4).map (fun d => some (f d))) := by
  constructor
  · have h1 : boostYs f [x0] [Option.none] = .ok [some (f x0)] := rfl
    simp only [boostOptimizationLists, h1, bind, Except.bind]
    simp
  · have h2 : boostYs g (x0 :: draws1.take 4)
        (some (f x0) :: (draws1.take 4).map (fun d => some (f d))) =
        .ok (some (f x0) :: (draws1.take 4).map (fun d => some (f d))) := by
      refine boostYs_allSome g _ _ ?_
      rintro y hy
      rcases List.mem_cons.mp hy with rfl | hy'
      · simp
      · obtain ⟨d, _, rfl⟩ := List.mem_map.mp hy'
        simp
    have hlen : (x0 :: draws1.take 4).length = 5 := by
      simp [List.length_take, Nat.min_eq_left h4]
    simp only [boostOptimizationLists, h2, bind, Except.bind, hlen]
    simp

theorem C10_boost_witness :
    boostOptimizationLists (fun v => v.headD 0) [[1], [2], [3], [4]] [[9]] [Option.none] =
      .ok ([9] :: [[1], [2], [3], [4]].take 4,
           some (([9] : List ℚ).headD 0) ::
             ([[1], [2], [3], [4]].take 4).map (fun d => some (List.headD d 0))) ∧
    boostOptimizationLists (fun v => v.headD 0) [[7]] ([9] :: [[1], [2], [3], [4]].take 4)
        (some (([9] : List ℚ).headD 0) ::
          ([[1], [2], [3], [4]].take 4).map (fun d => some (List.headD d 0))) =
      .ok ([9] :: [[1], [2], [3], [4]].take 4,
           some (([9] : List ℚ).headD 0) ::
             ([[1], [2], [3], [4]].take 4).map (fun d => some (List.headD d 0))) :=
  C10_boost_mutation [9] (fun v => v.headD 0) (fun v => v.headD 0)
    [[1], [2], [3], [4]] [[7]] (by norm_num)

/-- An actions entry the pre-phase processes without error: its key is in the
merged schema and its value suits the key's `pre` hook (`round` needs a
number or a bool). -/
def preOk (kv : String × Val) : Bool :=
  match preHookFor kv.1 with
  | Option.none => false
  | some Option.none => true
  | some (some .pround) =>
    match kv.2 with
    | .num _ => true
    | .bool _ => true
    | _ => false

theorem preStep_ok (st : Flat) (e : String × Val) (h : preOk e = true) :
    ∃ st', preStep st e = .ok st' := by
  unfold preOk at h
  unfold preStep
  cases hl : preHookFor e.1 with
  | none => rw [hl] at h; cases h
  | some op =>
    cases op with
    | none => exact ⟨_, rfl⟩
    | some p =>
      rw [hl] at h
      cases p
      cases hv : e.2 <;> rw [hv] at h <;>
        first
        | exact ⟨_, rfl⟩
        | cases h

/-- C2: an actions mapping containing a key absent from the merged schema
makes `get_hypers` fail loudly with a `KeyError` naming the out-of-sync key
(the entries before it being processable), rather than dropping or absorbing
it the way hydrate-hook failures are absorbed. -/
theorem C2_unknown_key_fails (pre post : Flat) (k : String) (v : Val)
    (hok : ∀ e ∈ pre, preOk e = true) (hk : alookup k hypersAll = Option.none) :
    getHypers (pre ++ (k, v) :: post) = .error (keyErr k) := by
  have key : ∀ (l : List (String × Val)) (st : Flat), (∀ e ∈ l, preOk e = true) →
      List.foldlM preStep st (l ++ (k, v) :: post) = .error (keyErr k) := by
    intro l
    induction l with
    | nil =>
      intro st _
      have hk' : preHookFor k = Option.none := by
        unfold preHookFor; rw [hk]
      have hs : preStep st (k, v) = .error (keyErr k) := by
        unfold preStep; rw [hk']
      simp [List.foldlM_cons, hs, bind, Except.bind]
    | cons e t ih =>
      intro st hall
      obtain ⟨st', hst⟩ := preStep_ok st e (hall e (by simp))
      rw [List.cons_append, List.foldlM_cons, hst]
      simpa [bind, Except.bind] using ih st' (fun z hz => hall z (by simp [hz]))
  have hpre : prePhase (pre ++ (k, v) :: post) = .error (keyErr k) := key pre [] hok
  unfold getHypers getHypersFrom
  rw [hpre]
  rfl

theorem C2_unknown_key_witness :
    getHypers [("batch_size", Val.num 10), ("bogus_key", Val.num 1)] =
      .error (keyErr "bogus_key") :=
  C2_unknown_key_fails [("batch_size", Val.num 10)] [] "bogus_key" (Val.num 1)
    (by intro e he; rcases List.mem_singleton.mp he with rfl; rfl)
    (by with_unfolding_all rfl)

/-- Equation lemma: `postStep` on a missing key. -/
theorem postStep_eq_err (st : Flat) (k : String) (hk : postHookFor k = Option.none) :
    postStep st k = .error (keyErr k) := by
  unfold postStep; rw [hk]

/-- Equation lemma: `postStep` on a key without a `post` hook. -/
theorem postStep_eq_skip (st : Flat) (k : String) (hk : postHookFor k = some Option.none) :
    postStep st k = .ok st := by
  unfold postStep; rw [hk]

/-- Equation lemma: `postStep` on a key with a `post` hook but no binding. -/
theorem postStep_eq_hook_err (st : Flat) (k : String) (p : PostHook)
    (hk : postHookFor k = some (some p)) (hv : alookup k st = Option.none) :
    postStep st k = .error (keyErr k) := by
  unfold postStep; rw [hk, hv]

/-- Equation lemma: `postStep` on a key with a `post` hook and a binding. -/
theorem postStep_eq_hook_val (st : Flat) (k : String) (p : PostHook) (v : Val)
    (hk : postHookFor k = some (some p)) (hv : alookup k st = some v) :
    postStep st k = (evalPost p v st).map (fun v' => ainsert k v' st) := by
  unfold postStep; rw [hk, hv]

/-- Helper: a successful (partial) post-phase fold never rewrites a key to
which no `post` hook applies (in particular, a hard-coded literal key). -/
theorem postFold_keeps (j : String) (hj : postHookFor j = some Option.none) :
    ∀ (ks : List String) (st st' : Flat),
      List.foldlM postStep st ks = .ok st' → alookup j st' = alookup j st := by
  intro ks
  induction ks with
  | nil =>
    intro st st' h
    simp only [List.foldlM_nil] at h
    cases h
    rfl
  | cons k t ih =>
    intro st st' h
    rw [List.foldlM_cons] at h
    cases hps : postStep st k with
    | error e => rw [hps] at h; simp [bind, Except.bind] at h
    | ok st1 =>
      rw [hps] at h
      simp only [bind, Except.bind] at h
      have hrec := ih st1 st' h
      have hstep : alookup j st1 = alookup j st := by
        cases hk : postHookFor k with
        | none => rw [postStep_eq_err st k hk] at hps; cases hps
        | some op =>
          cases op with
          | none =>
            rw [postStep_eq_skip st k hk] at hps
            cases hps
            rfl
          | some p =>
            have hkj : j ≠ k := by
              rintro rfl
              rw [hj] at hk
              cases hk
            cases hv : alookup k st with
            | none => rw [postStep_eq_hook_err st k p hk hv] at hps; cases hps
            | some v =>
              rw [postStep_eq_hook_val st k p v hk hv] at hps
              cases hev : evalPost p v st with
              | error e => rw [hev] at hps; simp [Except.map] at hps
              | ok v' =>
                rw [hev] at hps
                simp only [Except.map] at hps
                cases hps
                exact alookup_ainsert_ne j k v' st hkj
      rw [hrec, hstep]

/-- C9: whenever `get_hypers` succeeds, its flat record maps the hard-coded
key `net.type` to the schema literal `'conv2d'`, regardless of what the
actions mapping supplied at that key: the hardcoded merge runs after the
pre-phase and overwrites any action-supplied binding, and the post phase
never rewrites a literal-bound key. -/
theorem C9_hardcoded_overwrites (actions : Flat) (r : GHOut)
    (h : getHypers actions = .ok r) :
    alookup "net.type" r.flat = some (Val.str "conv2d") := by
  unfold getHypers getHypersFrom at h
  cases hp : prePhase actions with
  | error e => rw [hp] at h; simp [bind, Except.bind] at h
  | ok f0 =>
    rw [hp] at h
    simp only [bind, Except.bind] at h
    cases hq : postPhase (aupdate f0 hardcodedBase) with
    | error e => rw [hq] at h; simp [bind, Except.bind] at h
    | ok flat =>
      rw [hq] at h
      simp only [bind, Except.bind] at h
      cases hm : hydPhase flat with
      | error e => rw [hm] at h; simp [bind, Except.bind] at h
      | ok mc =>
        rw [hm] at h
        simp only [bind, Except.bind] at h
        cases hb : baselineStep flat mc.1 with
        | error e => rw [hb] at h; simp [bind, Except.bind] at h
        | ok mn =>
          rw [hb] at h
          simp only [bind, Except.bind, pure, Except.pure] at h
          cases h
          show alookup "net.type" flat = some (Val.str "conv2d")
          have hkeep := postFold_keeps "net.type" (by rfl)
            ((aupdate f0 hardcodedBase).map Prod.fst) (aupdate f0 hardcodedBase) flat hq
          rw [hkeep]
          show alookup "net.type" (ainsert "net.type" (Val.str "conv2d") f0) =
            some (Val.str "conv2d")
          exact alookup_ainsert_self _ _ _

theorem C9_hardcoded_witness :
    alookup "net.type"
        (((getHypers (ainsert "net.type" (Val.str "lstm") actionsFull)).toOption.getD
          ⟨[], [], []⟩).flat) = some (Val.str "conv2d") :=
  C9_hardcoded_overwrites (ainsert "net.type" (Val.str "lstm") actionsFull) _
    (by with_unfolding_all rfl)

/-! ## Path lemmas for the hydrate phase (claim C3) -/

/-- Boolean list-prefix test on path components. -/
def isPreL : List String → List String → Bool
  | [], _ => true
  | _ :: _, [] => false
  | a :: as, b :: bs => decide (a = b) && isPreL as bs

/-- Two paths are prefix-related (one extends the other). -/
def pathRel (p q : List String) : Bool := isPreL p q || isPreL q p

theorem treeGetPath_empty (p : List String) : treeGetPath p [] = Option.none := by
  match p with
  | [] => rfl
  | [k] => rfl
  | k :: k2 :: r => rfl

theorem pathRel_cons (a : String) (p q : List String) :
    pathRel (a :: p) (a :: q) = pathRel p q := by
  unfold pathRel
  show (decide (a = a) && isPreL p q || (decide (a = a) && isPreL q p)) =
    (isPreL p q || isPreL q p)
  simp

theorem pathRel_head_single (a : String) (p : List String) :
    pathRel (a :: p) [a] = true := by
  unfold pathRel
  have h : isPreL [a] (a :: p) = true := by
    show (decide (a = a) && isPreL [] p) = true
    simp [isPreL]
  simp [h]

theorem pathRel_single_head (a : String) (q : List String) :
    pathRel [a] (a :: q) = true := by
  unfold pathRel
  have h : isPreL [a] (a :: q) = true := by
    show (decide (a = a) && isPreL [] q) = true
    simp [isPreL]
  simp [h]

/-- Writing under one head key leaves lookups under a different head alone. -/
theorem treeGetPath_ainsert_ne_head (pk : String) (prest : List String) (key : String)
    (tr : Tree) (m : TreeMap) (h : pk ≠ key) :
    treeGetPath (pk :: prest) (ainsert key tr m) = treeGetPath (pk :: prest) m := by
  cases prest with
  | nil => exact alookup_ainsert_ne pk key tr m h
  | cons p2 pr =>
    unfold treeGetPath
    rw [alookup_ainsert_ne pk key tr m h]

/-- A top-level dict update at foreign keys leaves other heads alone. -/
theorem treeGetPath_aupdate_ne (pk : String) (prest : List String) (m t : TreeMap)
    (h : ∀ key ∈ t.map Prod.fst, key ≠ pk) :
    treeGetPath (pk :: prest) (aupdate m t) = treeGetPath (pk :: prest) m := by
  have hl := alookup_aupdate_notin pk m t h
  cases prest with
  | nil => exact hl
  | cons p2 pr =>
    unfold treeGetPath
    rw [hl]

/-- A successful `setPath` stores the value at its path. -/
theorem treeGetPath_setPath_self (q : List String) :
    ∀ (v : Tree) (m m' : TreeMap), setPath v q m = .ok m' →
      treeGetPath q m' = some v := by
  induction q with
  | nil => intro v m m' h; cases h
  | cons k rest ih =>
    intro v m m' h
    cases rest with
    | nil =>
      cases h
      exact alookup_ainsert_self k v m
    | cons k2 r2 =>
      unfold setPath at h
      cases hl : alookup k m with
      | none =>
        rw [hl] at h
        cases hs : setPath v (k2 :: r2) [] with
        | error e => rw [hs] at h; cases h
        | ok m0 =>
          rw [hs] at h
          cases h
          show treeGetPath (k :: k2 :: r2) (ainsert k (.node m0) m) = some v
          unfold treeGetPath
          rw [alookup_ainsert_self]
          exact ih v [] m0 hs
      | some tr =>
        cases tr with
        | leaf w => rw [hl] at h; cases h
        | node m0 =>
          rw [hl] at h
          have h2 : (setPath v (k2 :: r2) m0).map
              (fun m'' => ainsert k (.node m'') m) = Except.ok m' := h
          cases hs : setPath v (k2 :: r2) m0 with
          | error e => rw [hs] at h2; cases h2
          | ok m1 =>
            rw [hs] at h2
            cases h2
            show treeGetPath (k :: k2 :: r2) (ainsert k (.node m1) m) = some v
            unfold treeGetPath
            rw [alookup_ainsert_self]
            exact ih v m0 m1 hs

/-- A successful `setPath` leaves every non-prefix-related path unchanged. -/
theorem treeGetPath_setPath_ne (q : List String) :
    ∀ (p : List String) (v : Tree) (m m' : TreeMap),
      setPath v q m = .ok m' → pathRel p q = false →
      treeGetPath p m' = treeGetPath p m := by
  induction q with
  | nil => intro p v m m' h _; cases h
  | cons qk qrest ih =>
    intro p v m m' h hrel
    cases qrest with
    | nil =>
      cases h
      cases p with
      | nil => rfl
      | cons pk prest =>
        have hne : pk ≠ qk := by
          intro heq
          subst heq
          rw [pathRel_head_single] at hrel
          cases hrel
        exact treeGetPath_ainsert_ne_head pk prest qk v m hne
    | cons q2 qr =>
      unfold setPath at h
      cases hl : alookup qk m with
      | none =>
        rw [hl] at h
        cases hs : setPath v (q2 :: qr) [] with
        | error e => rw [hs] at h; cases h
        | ok m0 =>
          rw [hs] at h
          cases h
          cases p with
          | nil => rfl
          | cons pk prest =>
            by_cases hpg : pk = qk
            · subst hpg
              cases prest with
              | nil =>
                rw [pathRel_single_head] at hrel
                cases hrel
              | cons p2 pr =>
                rw [pathRel_cons] at hrel
                unfold treeGetPath
                rw [alookup_ainsert_self, hl]
                have hx := ih (p2 :: pr) v [] m0 hs hrel
                rw [treeGetPath_empty] at hx
                exact hx
            · exact treeGetPath_ainsert_ne_head pk prest qk (.node m0) m hpg
      | some tr =>
        cases tr with
        | leaf w => rw [hl] at h; cases h
        | node m0 =>
          rw [hl] at h
          have h2 : (setPath v (q2 :: qr) m0).map
              (fun m'' => ainsert qk (.node m'') m) = Except.ok m' := h
          cases hs : setPath v (q2 :: qr) m0 with
          | error e => rw [hs] at h2; cases h2
          | ok m1 =>
            rw [hs] at h2
            cases h2
            cases p with
            | nil => rfl
            | cons pk prest =>
              by_cases hpg : pk = qk
              · subst hpg
                cases prest with
                | nil =>
                  rw [pathRel_single_head] at hrel
                  cases hrel
                | cons p2 pr =>
                  rw [pathRel_cons] at hrel
                  unfold treeGetPath
                  rw [alookup_ainsert_self, hl]
                  exact ih (p2 :: pr) v m0 m1 hs hrel
              · exact treeGetPath_ainsert_ne_head pk prest qk (.node m1) m hpg

theorem alookup_mem {α : Type} (k : String) (m : List (String × α)) (v : α)
    (h : alookup k m = some v) : k ∈ m.map Prod.fst := by
  induction m with
  | nil => cases h
  | cons e t ih =>
    obtain ⟨e1, e2⟩ := e
    by_cases hk : e1 = k
    · subst hk
      simp
    · unfold alookup at h
      rw [if_neg hk] at h
      simp [ih h]

theorem ainsert_keys_of_mem {α : Type} (k : String) (v w : α) (m : List (String × α))
    (h : alookup k m = some w) : (ainsert k v m).map Prod.fst = m.map Prod.fst := by
  induction m with
  | nil => cases h
  | cons e t ih =>
    obtain ⟨e1, e2⟩ := e
    by_cases hk : e1 = k
    · subst hk
      unfold ainsert
      simp
    · unfold alookup at h
      rw [if_neg hk] at h
      unfold ainsert
      rw [if_neg hk]
      simp [ih h]

theorem splitCharList_ne_nil (sep : Char) (cs : List Char) : splitCharList sep cs ≠ [] := by
  cases cs with
  | nil => simp [splitCharList]
  | cons c t =>
    unfold splitCharList
    cases h : splitCharList sep t with
    | nil => cases hd : decide (c = sep) <;> simp
    | cons a r => cases hd : decide (c = sep) <;> simp

/-- The only hydrate hook yielding a dict result is `hydrate_baseline`, and
the dict's top-level keys are among the three baseline keys. -/
theorem evalHyd_tree_baseline (h : HydHook) (v : Val) (flatR : Flat) (t : TreeMap)
    (he : evalHyd h v flatR = .ok (.tree t)) :
    h = .hydBaseline ∧
      ∀ key ∈ t.map Prod.fst,
        key = "baseline" ∨ key = "baseline_mode" ∨ key = "baseline_optimizer" := by
  cases h with
  | twoToThe =>
    have he2 : Except.map HyRes.scalar (twoToThe v) = Except.ok (.tree t) := he
    cases hx : twoToThe v with
    | error e => rw [hx] at he2; cases he2
    | ok s => rw [hx] at he2; cases he2
  | tenToTheNeg =>
    have he2 : Except.map HyRes.scalar (tenToTheNeg v) = Except.ok (.tree t) := he
    cases hx : tenToTheNeg v with
    | error e => rw [hx] at he2; cases he2
    | ok s => rw [hx] at he2; cases he2
  | minTenNeg th fb =>
    have he2 : Except.map HyRes.scalar (minTenNegHook th fb v) = Except.ok (.tree t) := he
    cases hx : minTenNegHook th fb v with
    | error e => rw [hx] at he2; cases he2
    | ok s => rw [hx] at he2; cases he2
  | minThresh th fb =>
    have he2 : Except.map HyRes.scalar (minThreshold th fb v) = Except.ok (.tree t) := he
    cases hx : minThreshold th fb v with
    | error e => rw [hx] at he2; cases he2
    | ok s => rw [hx] at he2; cases he2
  | hydBaseline =>
    refine ⟨rfl, ?_⟩
    have he0 : hydrateBaseline v flatR = Except.ok (.tree t) := he
    clear he
    rename' he0 => he
    unfold hydrateBaseline at he
    cases h1 : flatGet flatR "optimization_steps" with
    | error e => rw [h1] at he; cases he
    | ok steps =>
      rw [h1] at he
      simp only [bind, Except.bind] at he
      cases h2 : flatGet flatR "step_optimizer.type" with
      | error e => rw [h2] at he; cases he
      | ok otype =>
        rw [h2] at he
        simp only [bind, Except.bind] at he
        cases h3 : flatGet flatR "step_optimizer.learning_rate" with
        | error e => rw [h3] at he; cases he
        | ok lr =>
          rw [h3] at he
          simp only [bind, Except.bind] at he
          cases h4 : negPow10OfVal lr with
          | error e => rw [h4] at he; cases he
          | ok lr2 =>
            rw [h4] at he
            simp only [bind, Except.bind] at he
            cases h5 : baselineSelector v with
            | error e => rw [h5] at he; cases he
            | ok b =>
              rw [h5] at he
              simp only [bind, Except.bind] at he
              cases b
              · cases he
                intro key hk
                simp at hk
                simp [hk]
              · cases he
                intro key hk
                simp at hk
                rcases hk with rfl | rfl | rfl <;> simp

/-- Distinct schema keys are never dot-path prefix-related. -/
theorem schema_paths_indep : ∀ k1 ∈ hypersAll.map Prod.fst, ∀ k2 ∈ hypersAll.map Prod.fst,
    k1 ≠ k2 → pathRel (splitDot k1) (splitDot k2) = false := by decide

/-- Only `baseline_mode` carries the `hydrate_baseline` hook. -/
theorem schema_hydBaseline_only : ∀ kk ∈ hypersAll.map Prod.fst,
    hydHookOf kk = some HydHook.hydBaseline → kk = "baseline_mode" := by decide

/-- No schema key other than `baseline_mode` starts with one of the top-level
keys `hydrate_baseline` merges into `main`. -/
theorem schema_heads_not_baseline : ∀ kk ∈ hypersAll.map Prod.fst, kk ≠ "baseline_mode" →
    ((splitDot kk).headD "" ≠ "baseline" ∧ (splitDot kk).headD "" ≠ "baseline_mode" ∧
     (splitDot kk).headD "" ≠ "baseline_optimizer") := by decide

/-- No schema key starts with the keys the post-hydration code inserts. -/
theorem schema_heads_not_special : ∀ kk ∈ hypersAll.map Prod.fst,
    ((splitDot kk).headD "" ≠ "baseline" ∧ (splitDot kk).headD "" ≠ "session_config") := by
  decide

theorem hydWritten_nohook (flatR : Flat) (kv : String × Val)
    (hh : hydHookOf kv.1 = Option.none) : hydWritten flatR kv = .scalar kv.2 := by
  unfold hydWritten; rw [hh]

theorem hydWritten_err (flatR : Flat) (kv : String × Val) (h : HydHook) (e : String)
    (hh : hydHookOf kv.1 = some h) (he : evalHyd h kv.2 flatR = .error e) :
    hydWritten flatR kv = .scalar kv.2 := by
  unfold hydWritten
  rw [hh]
  show (match evalHyd h kv.2 flatR with
    | Except.error _ => HyRes.scalar kv.2
    | Except.ok r => r) = HyRes.scalar kv.2
  rw [he]

theorem hydWritten_ok (flatR : Flat) (kv : String × Val) (h : HydHook) (r : HyRes)
    (hh : hydHookOf kv.1 = some h) (he : evalHyd h kv.2 flatR = .ok r) :
    hydWritten flatR kv = r := by
  unfold hydWritten
  rw [hh]
  show (match evalHyd h kv.2 flatR with
    | Except.error _ => HyRes.scalar kv.2
    | Except.ok r => r) = r
  rw [he]

/-- A dict write can only come from a hook that returned a dict. -/
theorem hydWritten_tree_inv (flatR : Flat) (kv : String × Val) (t : TreeMap)
    (hw : hydWritten flatR kv = .tree t) :
    ∃ h, hydHookOf kv.1 = some h ∧ evalHyd h kv.2 flatR = .ok (.tree t) := by
  cases hh : hydHookOf kv.1 with
  | none => rw [hydWritten_nohook flatR kv hh] at hw; cases hw
  | some h =>
    cases hv : evalHyd h kv.2 flatR with
    | error e => rw [hydWritten_err flatR kv h e hh hv] at hw; cases hw
    | ok r =>
      rw [hydWritten_ok flatR kv h r hh hv] at hw
      subst hw
      exact ⟨h, rfl, hv⟩

/-- Equation lemma: `hydStep` on a scalar write. -/
theorem hydStep_eq_scalarW (flatR : Flat) (st : TreeMap × TreeMap) (kv : String × Val)
    (s : Val) (hw : hydWritten flatR kv = .scalar s) :
    hydStep flatR st kv =
      (dotSet (if kv.1 ∈ ppoKeys then st.1 else st.2) kv.1 (.leaf s)).map
        (fun m => if kv.1 ∈ ppoKeys then (m, st.2) else (st.1, m)) := by
  unfold hydStep; rw [hw]

/-- Equation lemma: `hydStep` on a dict write (top-level update). -/
theorem hydStep_eq_treeW (flatR : Flat) (st : TreeMap × TreeMap) (kv : String × Val)
    (t : TreeMap) (hw : hydWritten flatR kv = .tree t) :
    hydStep flatR st kv =
      .ok (if kv.1 ∈ ppoKeys then (aupdate st.1 t, st.2)
           else (st.1, aupdate st.2 t)) := by
  unfold hydStep
  rw [hw]
  by_cases hm : kv.1 ∈ ppoKeys <;> simp [hm, Except.map]

/-- Inversion of one successful hydrate step for a schema key: either a
single dotted-path write under the key's own path, or (only for
`baseline_mode`) a top-level update at the three baseline keys. -/
theorem hydStep_inv (flatR : Flat) (st st' : TreeMap × TreeMap) (e : String × Val)
    (he2 : e.1 ∈ hypersAll.map Prod.fst)
    (hstep : hydStep flatR st e = .ok st') :
    ∃ m, st' = (if e.1 ∈ ppoKeys then (m, st.2) else (st.1, m)) ∧
      ((∃ val, setPath val (splitDot e.1) (if e.1 ∈ ppoKeys then st.1 else st.2) = .ok m) ∨
       (e.1 = "baseline_mode" ∧
        ∃ t, m = aupdate (if e.1 ∈ ppoKeys then st.1 else st.2) t ∧
          ∀ key ∈ t.map Prod.fst,
            key = "baseline" ∨ key = "baseline_mode" ∨ key = "baseline_optimizer")) := by
  cases hw : hydWritten flatR e with
  | scalar s =>
    rw [hydStep_eq_scalarW flatR st e s hw] at hstep
    cases hd : dotSet (if e.1 ∈ ppoKeys then st.1 else st.2) e.1 (.leaf s) with
    | error e3 => rw [hd] at hstep; cases hstep
    | ok m =>
      rw [hd] at hstep
      cases hstep
      exact ⟨m, rfl, Or.inl ⟨.leaf s, hd⟩⟩
  | tree t =>
    rw [hydStep_eq_treeW flatR st e t hw] at hstep
    obtain ⟨h, hh, hv⟩ := hydWritten_tree_inv flatR e t hw
    obtain ⟨hb, hkeys⟩ := evalHyd_tree_baseline h e.2 flatR t hv
    subst hb
    have hbm : e.1 = "baseline_mode" := schema_hydBaseline_only e.1 he2 hh
    by_cases hm : e.1 ∈ ppoKeys
    · rw [if_pos hm] at hstep
      cases hstep
      refine ⟨aupdate st.1 t, ?_, Or.inr ⟨hbm, t, ?_, hkeys⟩⟩
      · rw [if_pos hm]
      · rw [if_pos hm]
    · rw [if_neg hm] at hstep
      cases hstep
      refine ⟨aupdate st.2 t, ?_, Or.inr ⟨hbm, t, ?_, hkeys⟩⟩
      · rw [if_neg hm]
      · rw [if_neg hm]

/-- One hydrate step for a different schema key never disturbs the value at a
schema key's own dotted path (on either tree). -/
theorem hydStep_preserves (flatR : Flat) (k : String) (ph : String) (pt : List String)
    (hsplit : splitDot k = ph :: pt) (hk : k ∈ hypersAll.map Prod.fst)
    (e : String × Val) (he1 : e.1 ≠ k) (he2 : e.1 ∈ hypersAll.map Prod.fst)
    (st st' : TreeMap × TreeMap)
    (hstep : hydStep flatR st e = .ok st') :
    treeGetPath (splitDot k) (if k ∈ ppoKeys then st'.1 else st'.2) =
      treeGetPath (splitDot k) (if k ∈ ppoKeys then st.1 else st.2) := by
  have hpr : pathRel (splitDot k) (splitDot e.1) = false :=
    schema_paths_indep k hk e.1 he2 (fun hh => he1 hh.symm)
  obtain ⟨m, hst', hdisj⟩ := hydStep_inv flatR st st' e he2 hstep
  have hknb : e.1 = "baseline_mode" → k ≠ "baseline_mode" :=
    fun hbm hkk => he1 (hbm.trans hkk.symm)
  by_cases hmK : k ∈ ppoKeys <;> by_cases hmE : e.1 ∈ ppoKeys
  · rw [if_pos hmE] at hst' hdisj
    subst hst'
    rw [if_pos hmK, if_pos hmK]
    show treeGetPath (splitDot k) m = treeGetPath (splitDot k) st.1
    rcases hdisj with ⟨val, hset⟩ | ⟨hbm, t, hm2, hkeys⟩
    · exact treeGetPath_setPath_ne (splitDot e.1) (splitDot k) val st.1 m hset hpr
    · subst hm2
      rw [hsplit]
      refine treeGetPath_aupdate_ne ph pt st.1 t ?_
      intro key hkey
      have h3 := schema_heads_not_baseline k hk (hknb hbm)
      rw [hsplit] at h3
      simp only [List.headD_cons] at h3
      rcases hkeys key hkey with rfl | rfl | rfl
      · exact fun hcon => h3.1 hcon.symm
      · exact fun hcon => h3.2.1 hcon.symm
      · exact fun hcon => h3.2.2 hcon.symm
  · rw [if_neg hmE] at hst'
    subst hst'
    rw [if_pos hmK, if_pos hmK]
  · rw [if_pos hmE] at hst'
    subst hst'
    rw [if_neg hmK, if_neg hmK]
  · rw [if_neg hmE] at hst' hdisj
    subst hst'
    rw [if_neg hmK, if_neg hmK]
    show treeGetPath (splitDot k) m = treeGetPath (splitDot k) st.2
    rcases hdisj with ⟨val, hset⟩ | ⟨hbm, t, hm2, hkeys⟩
    · exact treeGetPath_setPath_ne (splitDot e.1) (splitDot k) val st.2 m hset hpr
    · subst hm2
      rw [hsplit]
      refine treeGetPath_aupdate_ne ph pt st.2 t ?_
      intro key hkey
      have h3 := schema_heads_not_baseline k hk (hknb hbm)
      rw [hsplit] at h3
      simp only [List.headD_cons] at h3
      rcases hkeys key hkey with rfl | rfl | rfl
      · exact fun hcon => h3.1 hcon.symm
      · exact fun hcon => h3.2.1 hcon.symm
      · exact fun hcon => h3.2.2 hcon.symm

/-- A successful hydrate fold over entries avoiding schema key `k` never
disturbs the value at `k`'s dotted path. -/
theorem hydFold_keeps (flatR : Flat) (k : String) (ph : String) (pt : List String)
    (hsplit : splitDot k = ph :: pt) (hk : k ∈ hypersAll.map Prod.fst) :
    ∀ (l : List (String × Val)) (st st' : TreeMap × TreeMap),
      List.foldlM (hydStep flatR) st l = .ok st' →
      (∀ e ∈ l, e.1 ≠ k ∧ e.1 ∈ hypersAll.map Prod.fst) →
      treeGetPath (splitDot k) (if k ∈ ppoKeys then st'.1 else st'.2) =
        treeGetPath (splitDot k) (if k ∈ ppoKeys then st.1 else st.2) := by
  intro l
  induction l with
  | nil =>
    intro st st' h _
    simp only [List.foldlM_nil] at h
    cases h
    rfl
  | cons e t ih =>
    intro st st' h hall
    rw [List.foldlM_cons] at h
    cases hs : hydStep flatR st e with
    | error e2 => rw [hs] at h; simp [bind, Except.bind] at h
    | ok st1 =>
      rw [hs] at h
      simp only [bind, Except.bind] at h
      have h1 := ih st1 st' h (fun z hz => hall z (by simp [hz]))
      have h2 := hydStep_preserves flatR k ph pt hsplit hk e
        (hall e (by simp)).1 (hall e (by simp)).2 st st1 hs
      rw [h1, h2]

/-- Lines 478–482 only touch `main['baseline']` (and the caller then sets
`main['session_config']`); any other head key keeps its subtree. -/
theorem baselineStep_keeps (flatR : Flat) (main mn : TreeMap) (ph : String)
    (pt : List String) (hb : baselineStep flatR main = .ok mn) (hph : ph ≠ "baseline") :
    treeGetPath (ph :: pt) mn = treeGetPath (ph :: pt) main := by
  unfold baselineStep at hb
  cases hg : flatGet flatR "baseline_mode" with
  | error e => rw [hg] at hb; cases hb
  | ok bm =>
    rw [hg] at hb
    simp only [bind, Except.bind] at hb
    cases ht : truthy bm with
    | false =>
      rw [ht] at hb
      simp only [Bool.false_eq_true, if_false] at hb
      cases hb
      rfl
    | true =>
      rw [ht] at hb
      simp only [if_true] at hb
      cases hlb : alookup "baseline" main with
      | none => rw [hlb] at hb; cases hb
      | some tr =>
        cases tr with
        | leaf w => rw [hlb] at hb; cases hb
        | node b =>
          rw [hlb] at hb
          cases hb
          exact treeGetPath_ainsert_ne_head ph pt "baseline" _ main hph

/-- The keys a post-phase fold leaves in the record are its input's keys. -/
theorem postFold_keys_eq : ∀ (ks : List String) (st st' : Flat),
    List.foldlM postStep st ks = .ok st' → st'.map Prod.fst = st.map Prod.fst := by
  intro ks
  induction ks with
  | nil =>
    intro st st' h
    simp only [List.foldlM_nil] at h
    cases h
    rfl
  | cons k t ih =>
    intro st st' h
    rw [List.foldlM_cons] at h
    cases hps : postStep st k with
    | error e => rw [hps] at h; simp [bind, Except.bind] at h
    | ok st1 =>
      rw [hps] at h
      simp only [bind, Except.bind] at h
      rw [ih st1 st' h]
      cases hk : postHookFor k with
      | none => rw [postStep_eq_err st k hk] at hps; cases hps
      | some op =>
        cases op with
        | none =>
          rw [postStep_eq_skip st k hk] at hps
          cases hps
          rfl
        | some p =>
          cases hv : alookup k st with
          | none => rw [postStep_eq_hook_err st k p hk hv] at hps; cases hps
          | some v =>
            rw [postStep_eq_hook_val st k p v hk hv] at hps
            cases hev : evalPost p v st with
            | error e => rw [hev] at hps; cases hps
            | ok v2 =>
              rw [hev] at hps
              cases hps
              exact ainsert_keys_of_mem k v2 v st hv

/-- A successful post-phase fold saw only schema-known keys. -/
theorem postFold_all_known : ∀ (ks : List String) (st st' : Flat),
    List.foldlM postStep st ks = .ok st' →
    ∀ kk ∈ ks, postHookFor kk ≠ Option.none := by
  intro ks
  induction ks with
  | nil => intro st st' _ kk hkk; cases hkk
  | cons k t ih =>
    intro st st' h kk hkk
    rw [List.foldlM_cons] at h
    cases hps : postStep st k with
    | error e => rw [hps] at h; simp [bind, Except.bind] at h
    | ok st1 =>
      rw [hps] at h
      simp only [bind, Except.bind] at h
      rcases List.mem_cons.mp hkk with rfl | hkk'
      · intro hn
        rw [postStep_eq_err st kk hn] at hps
        cases hps
      · exact ih st1 st' h kk hkk'

/-- A key the post phase accepts is a key of the merged schema. -/
theorem postHookFor_known (kk : String) (h : postHookFor kk ≠ Option.none) :
    kk ∈ hypersAll.map Prod.fst := by
  unfold postHookFor at h
  cases hl : alookup kk hypersAll with
  | none => rw [hl] at h; exact absurd rfl h
  | some hy => exact alookup_mem kk hypersAll hy hl

/-- C3 counterexample: a raising `post` hook is NOT recovered — with actions
`{'gae_lambda': 0.95}` the hook `x if (x and x > .9 and others['baseline_mode'])
else None` reaches `others['baseline_mode']`, which is absent, and the
`KeyError` propagates out of `get_hypers` (no fallback, no output record). -/
theorem C3_cex_post_raises :
    getHypers [("gae_lambda", Val.num (19/20))] = .error "KeyError: baseline_mode" := by
  with_unfolding_all rfl

/-- Helper for C3: in a successful `get_hypers` run, a flat key whose hydrate
hook raised is bound to its pre-hydration scalar value in its target tree. -/
theorem hydrate_fallback_general (actions : Flat) (r : GHOut) (k : String) (v : Val)
    (h : HydHook) (e : String)
    (hok : getHypers actions = .ok r)
    (hmem : (k, v) ∈ r.flat) (hnd : (r.flat.map Prod.fst).Nodup)
    (hh : hydHookOf k = some h) (he : evalHyd h v r.flat = .error e) :
    treeGet (if k ∈ ppoKeys then r.main else r.custom) k = some (.leaf v) := by
  unfold getHypers getHypersFrom at hok
  cases hp : prePhase actions with
  | error e2 => rw [hp] at hok; simp [bind, Except.bind] at hok
  | ok f0 =>
    rw [hp] at hok
    simp only [bind, Except.bind] at hok
    cases hq : postPhase (aupdate f0 hardcodedBase) with
    | error e2 => rw [hq] at hok; simp [bind, Except.bind] at hok
    | ok flatR =>
      rw [hq] at hok
      simp only [bind, Except.bind] at hok
      cases hm : hydPhase flatR with
      | error e2 => rw [hm] at hok; simp [bind, Except.bind] at hok
      | ok mc =>
        rw [hm] at hok
        simp only [bind, Except.bind] at hok
        cases hbs : baselineStep flatR mc.1 with
        | error e2 => rw [hbs] at hok; simp [bind, Except.bind] at hok
        | ok mn =>
          rw [hbs] at hok
          simp only [bind, Except.bind, pure, Except.pure] at hok
          cases hok
          dsimp only at hmem hnd he ⊢
          have hq' : List.foldlM postStep (aupdate f0 hardcodedBase)
              ((aupdate f0 hardcodedBase).map Prod.fst) = Except.ok flatR := hq
          have hall : ∀ ee ∈ flatR, ee.1 ∈ hypersAll.map Prod.fst := by
            intro ee hee
            have h1 : ee.1 ∈ flatR.map Prod.fst := List.mem_map_of_mem Prod.fst hee
            rw [postFold_keys_eq _ _ _ hq'] at h1
            exact postHookFor_known ee.1 (postFold_all_known _ _ _ hq' ee.1 h1)
          have hkS : k ∈ hypersAll.map Prod.fst := hall (k, v) hmem
          obtain ⟨ph, pt, hsplit⟩ : ∃ ph pt, splitDot k = ph :: pt := by
            unfold splitDot
            cases hx : splitCharList '.' k.data with
            | nil => exact absurd hx (splitCharList_ne_nil '.' k.data)
            | cons a b => exact ⟨a, b, rfl⟩
          have hspec := schema_heads_not_special k hkS
          rw [hsplit] at hspec
          simp only [List.headD_cons] at hspec
          obtain ⟨l1, l2, hfl⟩ := List.append_of_mem hmem
          have hndk : k ∉ l1.map Prod.fst ∧ k ∉ l2.map Prod.fst := by
            rw [hfl] at hnd
            simp only [List.map_append, List.map_cons] at hnd
            have h1 := List.Nodup.of_append_right hnd
            have h2 := (List.nodup_cons.mp h1).1
            have h3 := List.disjoint_of_nodup_append hnd
            exact ⟨fun hmem1 => h3 hmem1 (by simp), h2⟩
          have hl2 : ∀ ee ∈ l2, ee.1 ≠ k ∧ ee.1 ∈ hypersAll.map Prod.fst := by
            intro ee hee
            refine ⟨?_, hall ee (by rw [hfl]; simp [hee])⟩
            intro heq
            exact hndk.2 (heq ▸ List.mem_map_of_mem Prod.fst hee)
          have hm2 : List.foldlM (hydStep flatR) ([], []) (l1 ++ (k, v) :: l2) =
              Except.ok mc := by
            rw [← hfl]
            exact hm
          rw [List.foldlM_append] at hm2
          cases h1 : List.foldlM (hydStep flatR) ([], []) l1 with
          | error e2 => rw [h1] at hm2; simp [bind, Except.bind] at hm2
          | ok st1 =>
            rw [h1] at hm2
            simp only [bind, Except.bind] at hm2
            rw [List.foldlM_cons] at hm2
            cases h2 : hydStep flatR st1 (k, v) with
            | error e2 => rw [h2] at hm2; simp [bind, Except.bind] at hm2
            | ok st2 =>
              rw [h2] at hm2
              simp only [bind, Except.bind] at hm2
              have hw : hydWritten flatR (k, v) = .scalar v :=
                hydWritten_err flatR (k, v) h e hh he
              rw [hydStep_eq_scalarW flatR st1 (k, v) v hw] at h2
              dsimp only at h2
              cases hd : dotSet (if k ∈ ppoKeys then st1.1 else st1.2) k (.leaf v) with
              | error e3 => rw [hd] at h2; cases h2
              | ok m0 =>
                rw [hd] at h2
                cases h2
                have hown : treeGetPath (splitDot k)
                    (if k ∈ ppoKeys
                     then (if k ∈ ppoKeys then ((m0, st1.2) : TreeMap × TreeMap)
                           else (st1.1, m0)).1
                     else (if k ∈ ppoKeys then ((m0, st1.2) : TreeMap × TreeMap)
                           else (st1.1, m0)).2) = some (.leaf v) := by
                  by_cases hmK : k ∈ ppoKeys
                  · simp only [if_pos hmK]
                    exact treeGetPath_setPath_self (splitDot k) (.leaf v) _ m0 hd
                  · simp only [if_neg hmK]
                    exact treeGetPath_setPath_self (splitDot k) (.leaf v) _ m0 hd
                have hkeep := hydFold_keeps flatR k ph pt hsplit hkS l2 _ mc hm2 hl2
                have hfinal : treeGetPath (splitDot k)
                    (if k ∈ ppoKeys then mc.1 else mc.2) = some (.leaf v) :=
                  hkeep.trans hown
                by_cases hmK : k ∈ ppoKeys
                · simp only [if_pos hmK] at hfinal ⊢
                  show treeGetPath (splitDot k)
                    (ainsert "session_config" (.leaf .none) mn) = some (.leaf v)
                  rw [hsplit]
                  rw [treeGetPath_ainsert_ne_head ph pt "session_config" _ mn hspec.2]
                  rw [baselineStep_keeps flatR mc.1 mn ph pt hbs hspec.1]
                  rw [← hsplit]
                  exact hfinal
                · simp only [if_neg hmK] at hfinal ⊢
                  exact hfinal

/-- Helper for C3: a raising `post` hook makes `get_hypers` fail with that
exception (the post phase has no `try`). -/
theorem post_error_propagates (actions f0 : Flat) (e : String)
    (hp : prePhase actions = .ok f0)
    (hq : postPhase (aupdate f0 hardcodedBase) = .error e) :
    getHypers actions = .error e := by
  unfold getHypers getHypersFrom
  rw [hp]
  simp only [bind, Except.bind]
  rw [hq]

/-- C3 amended: hook exceptions during the pipeline split by phase.  (1) A
`hydrate` hook that raises is recovered locally: in any successful
`get_hypers` run, the key is still bound to its pre-hydration
(pre/post-processed) scalar value in its target tree (`main` for agent-schema
keys, `custom` otherwise).  (2) A `post` hook that raises is NOT recovered:
the exception propagates out of `get_hypers`. -/
theorem C3_amended_hook_errors :
    (∀ (actions : Flat) (r : GHOut) (k : String) (v : Val) (h : HydHook) (e : String),
        getHypers actions = .ok r → (k, v) ∈ r.flat → (r.flat.map Prod.fst).Nodup →
        hydHookOf k = some h → evalHyd h v r.flat = .error e →
        treeGet (if k ∈ ppoKeys then r.main else r.custom) k = some (.leaf v)) ∧
    (∀ (actions f0 : Flat) (e : String),
        prePhase actions = .ok f0 →
        postPhase (aupdate f0 hardcodedBase) = .error e →
        getHypers actions = .error e) :=
  ⟨fun actions r k v h e hok hmem hnd hh he =>
      hydrate_fallback_general actions r k v h e hok hmem hnd hh he,
   fun actions f0 e hp hq => post_error_propagates actions f0 e hp hq⟩

theorem C3_amended_witness :
    treeGet (if "net.dropout" ∈ ppoKeys
      then ((getHypers [("baseline_mode", Val.bool false),
              ("net.dropout", Val.str "x")]).toOption.getD ⟨[], [], []⟩).main
      else ((getHypers [("baseline_mode", Val.bool false),
              ("net.dropout", Val.str "x")]).toOption.getD ⟨[], [], []⟩).custom)
      "net.dropout" = some (.leaf (.str "x")) ∧
    getHypers [("gae_lambda", Val.num (19/20))] = .error "KeyError: baseline_mode" := by
  constructor
  · exact C3_amended_hook_errors.1
      [("baseline_mode", Val.bool false), ("net.dropout", Val.str "x")]
      ((getHypers [("baseline_mode", Val.bool false),
          ("net.dropout", Val.str "x")]).toOption.getD ⟨[], [], []⟩)
      "net.dropout" (Val.str "x") (.minThresh (1/10) Val.none) "TypeError: unorderable"
      (by with_unfolding_all rfl)
      (by with_unfolding_all decide)
      (by with_unfolding_all decide)
      (by with_unfolding_all rfl)
      (by with_unfolding_all rfl)
  · exact C3_amended_hook_errors.2 [("gae_lambda", Val.num (19/20))]
      [("gae_lambda", Val.num (19/20))] "KeyError: baseline_mode"
      (by with_unfolding_all rfl) (by with_unfolding_all rfl)

/-! ## C4: codec round trip on categorical and boolean slots -/

/-- The `obj` key one outer `vec2hypers` step over a feature name writes: the
name itself for a plain slot, the attr before `=` for a one-hot slot. -/
def wkey (n : String) : String :=
  match eqSplit n with
  | Option.none => n
  | some (attr, _) => attr

/-- A name with no `'='` in it (so `eqSplit` finds nothing). -/
def noEq (s : String) : Bool := (eqSplit s).isNone

/-- Whether a key is bound to a `bool`-kind spec in the filtered schema. -/
def isBoolKey (k : String) : Bool :=
  match alookup k hypersNH with
  | some h => isBoolEntry h
  | Option.none => false

/-- The outer reconstruction of `vec2hypers`, before the bool pass. -/
def outerRun (vec : NamedVec) : Flat :=
  (vec.filter (fun e => decide (e.2 ≠ 0))).foldl
    (outerStep (vec.filter (fun e => decide (e.2 ≠ 0)))) []

theorem vec2hypers_eq (vec : NamedVec) : vec2hypers vec = boolPass (outerRun vec) := rfl

theorem alookup_eq_none_of_notin {α : Type} (k : String) (m : List (String × α))
    (h : k ∉ m.map Prod.fst) : alookup k m = Option.none := by
  induction m with
  | nil => rfl
  | cons e t ih =>
    obtain ⟨e1, e2⟩ := e
    have h1 : e1 ≠ k := fun hh => h (by simp [hh])
    have h2 : k ∉ t.map Prod.fst := fun hh => h (by simp [hh])
    simp only [alookup]
    rw [if_neg h1]
    exact ih h2

/-- A dict splits at the first binding of a present key. -/
theorem alookup_split {α : Type} (k : String) (m : List (String × α)) (v : α)
    (h : alookup k m = some v) :
    ∃ m1 m2, m = m1 ++ (k, v) :: m2 ∧ ∀ e ∈ m1, e.1 ≠ k := by
  induction m with
  | nil => cases h
  | cons e t ih =>
    obtain ⟨e1, e2⟩ := e
    by_cases hk : e1 = k
    · subst hk
      simp only [alookup, if_pos rfl] at h
      cases h
      exact ⟨[], t, rfl, by simp⟩
    · simp only [alookup] at h
      rw [if_neg hk] at h
      obtain ⟨m1, m2, hm, hall⟩ := ih h
      refine ⟨(e1, e2) :: m1, m2, by rw [hm]; rfl, ?_⟩
      intro z hz
      rcases List.mem_cons.mp hz with h1 | h1
      · rw [h1]; exact hk
      · exact hall z h1

theorem notin_right_of_count_one {α : Type} (k : String) (m1 m2 : List (String × α)) (v : α)
    (hc : ((m1 ++ (k, v) :: m2).map Prod.fst).count k = 1) :
    ∀ e ∈ m2, e.1 ≠ k := by
  intro e he hek
  have hmem : k ∈ m2.map Prod.fst := List.mem_map.mpr ⟨e, he, hek⟩
  have h2 : (m2.map Prod.fst).count k ≠ 0 := fun h0 => (List.count_eq_zero.mp h0) hmem
  rw [List.map_append, List.count_append, List.map_cons, List.count_cons_self] at hc
  omega

/-- A list containing a name exactly once splits at it, the name in neither part. -/
theorem name_split (n : String) (l : List String) (hmem : n ∈ l) (hc : l.count n = 1) :
    ∃ A B, l = A ++ n :: B ∧ n ∉ A ∧ n ∉ B := by
  obtain ⟨A, B, hl⟩ := List.append_of_mem hmem
  rw [hl, List.count_append, List.count_cons_self] at hc
  exact ⟨A, B, hl, List.count_eq_zero.mp (by omega), List.count_eq_zero.mp (by omega)⟩

/-- No component `str.split(sep)` yields contains the separator. -/
theorem splitCharList_no_sep (sep : Char) (cs : List Char) :
    ∀ comp ∈ splitCharList sep cs, sep ∉ comp.data := by
  induction cs with
  | nil =>
    intro comp hc
    rcases List.mem_singleton.mp hc with h1
    rw [h1]
    intro hmem
    exact List.not_mem_nil sep hmem
  | cons c t ih =>
    intro comp hc
    cases hsp : splitCharList sep t with
    | nil => exact absurd hsp (splitCharList_ne_nil sep t)
    | cons h0 t0 =>
      by_cases hcs : c = sep
      · have he : splitCharList sep (c :: t) = "" :: h0 :: t0 := by
          unfold splitCharList
          rw [hsp, decide_eq_true hcs]
        rw [he] at hc
        rcases List.mem_cons.mp hc with h1 | h1
        · rw [h1]
          intro hmem
          exact List.not_mem_nil sep hmem
        · exact ih comp (by rw [hsp]; exact h1)
      · have he : splitCharList sep (c :: t) = String.mk (c :: h0.data) :: t0 := by
          unfold splitCharList
          rw [hsp, decide_eq_false hcs]
        rw [he] at hc
        rcases List.mem_cons.mp hc with h1 | h1
        · rw [h1]
          intro hmem
          have hmem2 : sep ∈ c :: h0.data := hmem
          rcases List.mem_cons.mp hmem2 with h2 | h2
          · exact hcs h2.symm
          · exact ih h0 (by rw [hsp]; exact List.mem_cons_self h0 t0) h2
        · exact ih comp (by rw [hsp]; exact List.mem_cons_of_mem h0 h1)

/-- Splitting a separator-free string is the identity singleton. -/
theorem splitCharList_of_no_sep (sep : Char) (cs : List Char) (h : sep ∉ cs) :
    splitCharList sep cs = [String.mk cs] := by
  induction cs with
  | nil => rfl
  | cons c t ih =>
    have hc : c ≠ sep := fun he => h (by rw [he]; exact List.mem_cons_self sep t)
    have ht : sep ∉ t := fun he => h (List.mem_cons_of_mem c he)
    unfold splitCharList
    rw [ih ht, decide_eq_false hc]

/-- The attr half of a one-hot name contains no further `'='`. -/
theorem eqSplit_attr_none (n attr val : String) (h : eqSplit n = some (attr, val)) :
    eqSplit attr = Option.none := by
  unfold eqSplit at h
  cases hsp : splitCharList '=' n.data with
  | nil => exact absurd hsp (splitCharList_ne_nil _ _)
  | cons a rest =>
    cases rest with
    | nil =>
      rw [hsp] at h
      have h2 : (Option.none : Option (String × String)) = some (attr, val) := h
      cases h2
    | cons b r2 =>
      rw [hsp] at h
      have h2 : some (a, b) = some (attr, val) := h
      injection h2 with h3
      have ha : a = attr := congrArg Prod.fst h3
      have hmem : '=' ∉ attr.data := by
        rw [← ha]
        exact splitCharList_no_sep '=' n.data a (by rw [hsp]; exact List.mem_cons_self a _)
      unfold eqSplit
      rw [splitCharList_of_no_sep '=' attr.data hmem]

theorem ainsert_keys {α : Type} (k : String) (v : α) (m : List (String × α)) (key : String)
    (h : key ∈ (ainsert k v m).map Prod.fst) : key = k ∨ key ∈ m.map Prod.fst := by
  induction m with
  | nil =>
    simp only [ainsert, List.map_cons, List.map_nil, List.mem_singleton] at h
    exact Or.inl h
  | cons e t ih =>
    obtain ⟨e1, e2⟩ := e
    by_cases hk : e1 = k
    · subst hk
      simp only [ainsert, if_pos rfl, List.map_cons] at h
      rcases List.mem_cons.mp h with h1 | h1
      · exact Or.inl h1
      · exact Or.inr (by simp only [List.map_cons]; exact List.mem_cons_of_mem _ h1)
    · simp only [ainsert] at h
      rw [if_neg hk] at h
      simp only [List.map_cons] at h
      rcases List.mem_cons.mp h with h1 | h1
      · exact Or.inr (by rw [h1]; simp)
      · rcases ih h1 with h2 | h2
        · exact Or.inl h2
        · exact Or.inr (by simp only [List.map_cons]; exact List.mem_cons_of_mem _ h2)

theorem filter_middle_pos (p : (String × ℚ) → Bool) (A B : NamedVec) (e : String × ℚ)
    (hp : p e = true) :
    (A ++ e :: B).filter p = A.filter p ++ e :: B.filter p := by
  rw [List.filter_append, List.filter_cons, if_pos hp]

theorem filter_middle_neg (p : (String × ℚ) → Bool) (A B : NamedVec) (e : String × ℚ)
    (hp : p e = false) :
    (A ++ e :: B).filter p = A.filter p ++ B.filter p := by
  have h : ¬ (p e = true) := by rw [hp]; exact Bool.false_ne_true
  rw [List.filter_append, List.filter_cons, if_neg h]

/-- Every key the outer reconstruction ever writes is `'='`-free. -/
theorem outer_keys_noEq (R : NamedVec) :
    ∀ (l : NamedVec) (obj : Flat),
      (∀ key ∈ obj.map Prod.fst, noEq key = true) →
      ∀ key ∈ (l.foldl (outerStep R) obj).map Prod.fst, noEq key = true := by
  intro l
  induction l with
  | nil => intro obj h key hk; exact h key hk
  | cons e t ih =>
    intro obj h key hk
    rw [List.foldl_cons] at hk
    refine ih (outerStep R obj e) ?_ key hk
    intro key2 hk2
    unfold outerStep at hk2
    cases hsp : eqSplit e.1 with
    | none =>
      rw [hsp] at hk2
      have hk3 : key2 ∈ (ainsert e.1 (Val.num e.2) obj).map Prod.fst := hk2
      rcases ainsert_keys _ _ _ _ hk3 with h1 | h1
      · rw [h1]; unfold noEq; rw [hsp]; rfl
      · exact h key2 h1
    | some pr =>
      obtain ⟨attr, val⟩ := pr
      rw [hsp] at hk2
      have hk3 : key2 ∈ (if amem e.1 obj = true then obj
          else ainsert attr (Val.str (R.foldl (argmaxStep attr) (e.2, val)).2) obj).map
            Prod.fst := hk2
      by_cases hm : amem e.1 obj = true
      · rw [if_pos hm] at hk3
        exact h key2 hk3
      · rw [if_neg hm] at hk3
        rcases ainsert_keys _ _ _ _ hk3 with h1 | h1
        · rw [h1]
          unfold noEq
          rw [eqSplit_attr_none e.1 attr val hsp]
          rfl
        · exact h key2 h1

/-- An outer fold over entries that never write key `k` leaves `k`'s binding. -/
theorem outer_no_write (R : NamedVec) (k : String) :
    ∀ (l : NamedVec) (obj : Flat),
      (∀ e ∈ l, wkey e.1 ≠ k) →
      alookup k (l.foldl (outerStep R) obj) = alookup k obj := by
  intro l
  induction l with
  | nil => intro obj _; rfl
  | cons e t ih =>
    intro obj hall
    rw [List.foldl_cons]
    rw [ih (outerStep R obj e) (fun z hz => hall z (List.mem_cons_of_mem e hz))]
    have hwk := hall e (List.mem_cons_self e t)
    unfold outerStep
    cases hsp : eqSplit e.1 with
    | none =>
      have hne : e.1 ≠ k := by
        unfold wkey at hwk; rw [hsp] at hwk; exact hwk
      exact alookup_ainsert_ne k e.1 (Val.num e.2) obj (Ne.symm hne)
    | some pr =>
      obtain ⟨attr, val⟩ := pr
      have hne : attr ≠ k := by
        unfold wkey at hwk; rw [hsp] at hwk; exact hwk
      show alookup k (if amem e.1 obj = true then obj
          else ainsert attr (Val.str (R.foldl (argmaxStep attr) (e.2, val)).2) obj) =
        alookup k obj
      by_cases hm : amem e.1 obj = true
      · rw [if_pos hm]
      · rw [if_neg hm]
        exact alookup_ainsert_ne k attr _ obj (Ne.symm hne)

/-- The winner scan keeps its seed when no prefixed entry beats it. -/
theorem argmax_no_improve (attr : String) :
    ∀ (l : NamedVec) (acc : ℚ × String),
      (∀ e ∈ l, charStartsWith (attr.data ++ ['=']) e.1.data = true → ¬ acc.1 < e.2) →
      l.foldl (argmaxStep attr) acc = acc := by
  intro l
  induction l with
  | nil => intro acc _; rfl
  | cons e t ih =>
    intro acc hall
    rw [List.foldl_cons]
    have hstep : argmaxStep attr acc e = acc := by
      unfold argmaxStep
      by_cases hp : charStartsWith (attr.data ++ ['=']) e.1.data = true
      · have hno := hall e (List.mem_cons_self e t) hp
        have hcond : ¬ ((charStartsWith (attr.data ++ ['=']) e.1.data &&
            decide (acc.1 < e.2)) = true) := by
          intro hb
          rw [Bool.and_eq_true] at hb
          exact hno (of_decide_eq_true hb.2)
        rw [if_neg hcond]
      · have hcond : ¬ ((charStartsWith (attr.data ++ ['=']) e.1.data &&
            decide (acc.1 < e.2)) = true) := by
          intro hb
          rw [Bool.and_eq_true] at hb
          exact hp hb.1
        rw [if_neg hcond]
    rw [hstep]
    exact ih acc (fun z hz h2 => hall z (List.mem_cons_of_mem e hz) h2)

theorem outerStep_plain (R : NamedVec) (o : Flat) (n : String) (q : ℚ)
    (heq : eqSplit n = Option.none) :
    outerStep R o (n, q) = ainsert n (Val.num q) o := by
  have h1 : eqSplit (n, q).1 = Option.none := heq
  unfold outerStep
  rw [h1]

theorem outerStep_onehot (R : NamedVec) (o : Flat) (n attr val : String) (q : ℚ)
    (hsp : eqSplit n = some (attr, val))
    (hm : amem n o = false)
    (hwin : R.foldl (argmaxStep attr) (q, val) = (q, val)) :
    outerStep R o (n, q) = ainsert attr (Val.str val) o := by
  have h1 : eqSplit (n, q).1 = some (attr, val) := hsp
  unfold outerStep
  rw [h1]
  show (if amem n o = true then o
      else ainsert attr (Val.str (R.foldl (argmaxStep attr) (q, val)).2) o) =
    ainsert attr (Val.str val) o
  rw [hm]
  rw [if_neg Bool.false_ne_true]
  rw [hwin]

/-- Reconstruction of a plain slot present (nonzero) in the vector. -/
theorem outer_plain_lookup (k : String) (q : ℚ) (FA FB : NamedVec)
    (heq : eqSplit k = Option.none)
    (hFB : ∀ e ∈ FB, wkey e.1 ≠ k) :
    alookup k ((FA ++ (k, q) :: FB).foldl (outerStep (FA ++ (k, q) :: FB)) []) =
      some (Val.num q) := by
  rw [List.foldl_append, List.foldl_cons]
  rw [outer_no_write _ k FB _ hFB]
  rw [outerStep_plain _ _ k q heq, alookup_ainsert_self]

/-- Reconstruction when no entry writes `k`: the key stays absent. -/
theorem outer_absent_lookup (k : String) (l : NamedVec)
    (hl : ∀ e ∈ l, wkey e.1 ≠ k) :
    alookup k (l.foldl (outerStep l) []) = Option.none := by
  rw [outer_no_write l k l [] hl]
  rfl

/-- Reconstruction of a one-hot slot present (value `1`) in the vector, when
no later entry writes `attr` and no prefixed entry beats the seed score. -/
theorem outer_onehot_lookup (attr ndName d : String) (FA FB : NamedVec)
    (heqd : eqSplit ndName = some (attr, d))
    (hFB : ∀ e ∈ FB, wkey e.1 ≠ attr)
    (harg : ∀ e ∈ FA ++ (ndName, (1 : ℚ)) :: FB,
      charStartsWith (attr.data ++ ['=']) e.1.data = true → ¬ (1 : ℚ) < e.2) :
    alookup attr ((FA ++ (ndName, (1 : ℚ)) :: FB).foldl
        (outerStep (FA ++ (ndName, (1 : ℚ)) :: FB)) []) =
      some (Val.str d) := by
  rw [List.foldl_append, List.foldl_cons]
  rw [outer_no_write _ attr FB _ hFB]
  have hkeys := outer_keys_noEq (FA ++ (ndName, (1 : ℚ)) :: FB) FA []
    (by intro key hk; simp at hk)
  have hmemO : amem ndName
      (FA.foldl (outerStep (FA ++ (ndName, (1 : ℚ)) :: FB)) []) = false := by
    cases hmm : amem ndName (FA.foldl (outerStep (FA ++ (ndName, (1 : ℚ)) :: FB)) []) with
    | false => rfl
    | true =>
      exfalso
      unfold amem at hmm
      cases hal : alookup ndName (FA.foldl (outerStep (FA ++ (ndName, (1 : ℚ)) :: FB)) []) with
      | none =>
        rw [hal] at hmm
        exact Bool.false_ne_true hmm
      | some v =>
        have hnk := hkeys ndName (alookup_mem _ _ _ hal)
        unfold noEq at hnk
        rw [heqd] at hnk
        exact Bool.false_ne_true hnk
  rw [outerStep_onehot _ _ ndName attr d 1 heqd hmemO
    (argmax_no_improve attr _ (1, d) harg)]
  rw [alookup_ainsert_self]

/-- The bool pass never rebinds a key none of its bool-spec entries carry. -/
theorem bp_no_write (k : String) :
    ∀ (l : List (String × Hyper)) (o : Flat),
      (∀ e ∈ l, isBoolEntry e.2 = true → e.1 ≠ k) →
      alookup k (l.foldl bpStep o) = alookup k o := by
  intro l
  induction l with
  | nil => intro o _; rfl
  | cons e t ih =>
    intro o hall
    rw [List.foldl_cons, ih (bpStep o e) (fun z hz => hall z (List.mem_cons_of_mem e hz))]
    unfold bpStep
    by_cases hb : isBoolEntry e.2 = true
    · rw [if_pos hb]
      exact alookup_ainsert_ne k e.1 (bpVal o e.1) o
        (Ne.symm (hall e (List.mem_cons_self e t) hb))
    · rw [if_neg hb]

/-- At a key carried by exactly one (bool-kind) schema entry, the bool pass
binds `bool(round(obj.get(k, 0.)))` of the incoming record. -/
theorem boolPass_at_bool (k : String) (l1 l2 : List (String × Hyper)) (hq : Hyper)
    (hsp : hypersNH = l1 ++ (k, hq) :: l2)
    (hbe : isBoolEntry hq = true)
    (h1 : ∀ e ∈ l1, isBoolEntry e.2 = true → e.1 ≠ k)
    (h2 : ∀ e ∈ l2, isBoolEntry e.2 = true → e.1 ≠ k)
    (obj : Flat) :
    alookup k (boolPass obj) = some (bpVal obj k) := by
  unfold boolPass
  rw [hsp, List.foldl_append, List.foldl_cons]
  rw [bp_no_write k l2 _ h2]
  have hstep : bpStep (l1.foldl bpStep obj) (k, hq) =
      ainsert k (bpVal (l1.foldl bpStep obj) k) (l1.foldl bpStep obj) := by
    unfold bpStep
    rw [if_pos hbe]
  rw [hstep, alookup_ainsert_self]
  have hcong : bpVal (l1.foldl bpStep obj) k = bpVal obj k := by
    unfold bpVal
    rw [bp_no_write k l1 obj h1]
  rw [hcong]

/-- What the vectorizer's dict build binds at a non-hardcoded key. -/
theorem h2v_lookup (k : String) (hk : k ∉ hardcodedKeys) :
    ∀ (obj : Flat) (h0 : Flat), (obj.map Prod.fst).Nodup →
      alookup k (obj.foldl h2vStep h0) =
        (match alookup k obj with
         | some v => some (pyCoerce v)
         | Option.none => alookup k h0) := by
  intro obj
  induction obj with
  | nil => intro h0 _; rfl
  | cons e t ih =>
    intro h0 hnd
    obtain ⟨e1, e2⟩ := e
    rw [List.map_cons, List.nodup_cons] at hnd
    obtain ⟨hnin, hnd2⟩ := hnd
    rw [List.foldl_cons]
    rw [ih (h2vStep h0 (e1, e2)) hnd2]
    by_cases hke : e1 = k
    · subst hke
      rw [alookup_eq_none_of_notin e1 t hnin]
      show alookup e1 (h2vStep h0 (e1, e2)) =
        (match alookup e1 ((e1, e2) :: t) with
         | some v => some (pyCoerce v)
         | Option.none => alookup e1 h0)
      unfold h2vStep
      rw [if_neg hk]
      rw [alookup_ainsert_self]
      rw [show alookup e1 ((e1, e2) :: t) = some e2 from by simp [alookup]]
    · have hh : alookup k (h2vStep h0 (e1, e2)) = alookup k h0 := by
        unfold h2vStep
        by_cases hhc : e1 ∈ hardcodedKeys
        · rw [if_pos hhc]
        · rw [if_neg hhc]
          exact alookup_ainsert_ne k e1 (pyCoerce e2) h0 (Ne.symm hke)
      rw [hh]
      have hr : alookup k ((e1, e2) :: t) = alookup k t := by
        simp only [alookup]; rw [if_neg hke]
      rw [hr]

theorem slot_numeric (k : String) (heq : eqSplit k = Option.none) (h : Flat) :
    slotVal h k = (match alookup k h with | some (.num q) => q | _ => 0) := by
  unfold slotVal
  rw [heq]

theorem slot_onehot (n attr val : String) (heq : eqSplit n = some (attr, val)) (h : Flat) :
    slotVal h n =
      (match alookup attr h with | some (.str s) => if s = val then 1 else 0 | _ => 0) := by
  unfold slotVal
  rw [heq]

/-- Round trip of a boolean slot: a `bool`-kind key bound to `.bool b` in a
duplicate-free record comes back as `.bool b` from `vec2hypers ∘ hypers2vec`. -/
theorem bool_roundtrip (k : String) (obj : Flat) (b : Bool)
    (hnd : (obj.map Prod.fst).Nodup)
    (hval : alookup k obj = some (Val.bool b))
    (heq : eqSplit k = Option.none)
    (hhc : k ∉ hardcodedKeys)
    (hmem : k ∈ featNames)
    (hcount : featNames.count k = 1)
    (hwk : ∀ n ∈ featNames, n ≠ k → wkey n ≠ k)
    (hbk : isBoolKey k = true)
    (hcnh : (hypersNH.map Prod.fst).count k = 1) :
    alookup k (vec2hypers (hypers2vec obj)) = some (Val.bool b) := by
  cases halk : alookup k hypersNH with
  | none =>
    exfalso
    unfold isBoolKey at hbk
    rw [halk] at hbk
    exact Bool.false_ne_true hbk
  | some hq =>
    have hbe : isBoolEntry hq = true := by
      unfold isBoolKey at hbk; rw [halk] at hbk; exact hbk
    obtain ⟨l1, l2, hsp, h1'⟩ := alookup_split k hypersNH hq halk
    have h1 : ∀ e ∈ l1, isBoolEntry e.2 = true → e.1 ≠ k := fun e he _ => h1' e he
    have h2 : ∀ e ∈ l2, isBoolEntry e.2 = true → e.1 ≠ k := by
      have hcnt := hcnh
      rw [hsp] at hcnt
      intro e he _
      exact notin_right_of_count_one k l1 l2 hq hcnt e he
    obtain ⟨A, B, hfeat, hkA, hkB⟩ := name_split k featNames hmem hcount
    have hwA : ∀ n ∈ A, wkey n ≠ k := by
      intro n hn
      refine hwk n (by rw [hfeat]; exact List.mem_append_left _ hn) ?_
      intro he
      exact hkA (he ▸ hn)
    have hwB : ∀ n ∈ B, wkey n ≠ k := by
      intro n hn
      refine hwk n (by rw [hfeat]; exact List.mem_append_right _ (List.mem_cons_of_mem _ hn)) ?_
      intro he
      exact hkB (he ▸ hn)
    have hFA : ∀ e ∈ ((A.map (fun n => (n, slotVal (hypers2vecDict obj) n))).filter
        (fun e => decide (e.2 ≠ 0))), wkey e.1 ≠ k := by
      intro e he
      obtain ⟨n, hn, hfn⟩ := List.mem_map.mp (List.mem_of_mem_filter he)
      rw [← hfn]
      exact hwA n hn
    have hFB : ∀ e ∈ ((B.map (fun n => (n, slotVal (hypers2vecDict obj) n))).filter
        (fun e => decide (e.2 ≠ 0))), wkey e.1 ≠ k := by
      intro e he
      obtain ⟨n, hn, hfn⟩ := List.mem_map.mp (List.mem_of_mem_filter he)
      rw [← hfn]
      exact hwB n hn
    cases b with
    | true =>
      have hlk : alookup k (hypers2vecDict obj) = some (Val.num 1) := by
        unfold hypers2vecDict
        rw [h2v_lookup k hhc obj [] hnd, hval]
        with_unfolding_all rfl
      have slotk : slotVal (hypers2vecDict obj) k = 1 := by
        rw [slot_numeric k heq, hlk]
      have hvec : hypers2vec obj =
          A.map (fun n => (n, slotVal (hypers2vecDict obj) n)) ++ (k, (1 : ℚ)) ::
            B.map (fun n => (n, slotVal (hypers2vecDict obj) n)) := by
        unfold hypers2vec
        rw [hfeat, List.map_append, List.map_cons, slotk]
      have hfilt : (hypers2vec obj).filter (fun e => decide (e.2 ≠ 0)) =
          ((A.map (fun n => (n, slotVal (hypers2vecDict obj) n))).filter
            (fun e => decide (e.2 ≠ 0))) ++ (k, (1 : ℚ)) ::
          ((B.map (fun n => (n, slotVal (hypers2vecDict obj) n))).filter
            (fun e => decide (e.2 ≠ 0))) := by
        rw [hvec]
        exact filter_middle_pos _ _ _ _ (by with_unfolding_all rfl)
      have halo : alookup k (outerRun (hypers2vec obj)) = some (Val.num 1) := by
        unfold outerRun
        rw [hfilt]
        exact outer_plain_lookup k 1 _ _ heq hFB
      rw [vec2hypers_eq]
      rw [boolPass_at_bool k l1 l2 hq hsp hbe h1 h2 (outerRun (hypers2vec obj))]
      unfold bpVal
      rw [halo]
      with_unfolding_all rfl
    | false =>
      have hlk : alookup k (hypers2vecDict obj) = some (Val.num 0) := by
        unfold hypers2vecDict
        rw [h2v_lookup k hhc obj [] hnd, hval]
        with_unfolding_all rfl
      have slotk : slotVal (hypers2vecDict obj) k = 0 := by
        rw [slot_numeric k heq, hlk]
      have hvec : hypers2vec obj =
          A.map (fun n => (n, slotVal (hypers2vecDict obj) n)) ++ (k, (0 : ℚ)) ::
            B.map (fun n => (n, slotVal (hypers2vecDict obj) n)) := by
        unfold hypers2vec
        rw [hfeat, List.map_append, List.map_cons, slotk]
      have hfilt : (hypers2vec obj).filter (fun e => decide (e.2 ≠ 0)) =
          ((A.map (fun n => (n, slotVal (hypers2vecDict obj) n))).filter
            (fun e => decide (e.2 ≠ 0))) ++
          ((B.map (fun n => (n, slotVal (hypers2vecDict obj) n))).filter
            (fun e => decide (e.2 ≠ 0))) := by
        rw [hvec]
        exact filter_middle_neg _ _ _ _ (by with_unfolding_all rfl)
      have halo : alookup k (outerRun (hypers2vec obj)) = Option.none := by
        unfold outerRun
        rw [hfilt]
        refine outer_absent_lookup k _ ?_
        intro e he
        rcases List.mem_append.mp he with h3 | h3
        · exact hFA e h3
        · exact hFB e h3
      rw [vec2hypers_eq]
      rw [boolPass_at_bool k l1 l2 hq hsp hbe h1 h2 (outerRun (hypers2vec obj))]
      unfold bpVal
      rw [halo]
      with_unfolding_all rfl

/-- Round trip of a one-hot slot: a categorical key bound to domain value `d`
in a duplicate-free record comes back as `.str d` from
`vec2hypers ∘ hypers2vec`.  `ndName`/`otherName` are the key's two one-hot
feature names, `d`/`otherVal` their values. -/
theorem cat_roundtrip (attr d ndName otherName otherVal : String) (obj : Flat)
    (hnd : (obj.map Prod.fst).Nodup)
    (hval : alookup attr obj = some (Val.str d))
    (hdne : d ≠ "")
    (hhc : attr ∉ hardcodedKeys)
    (heqd : eqSplit ndName = some (attr, d))
    (heqo : eqSplit otherName = some (attr, otherVal))
    (hov : otherVal ≠ d)
    (hmem : ndName ∈ featNames)
    (hcount : featNames.count ndName = 1)
    (hpre2 : ∀ n ∈ featNames, charStartsWith (attr.data ++ ['=']) n.data = true →
      n = ndName ∨ n = otherName)
    (hwk2 : ∀ n ∈ featNames, wkey n = attr →
      charStartsWith (attr.data ++ ['=']) n.data = true)
    (hnb : ∀ e ∈ hypersNH, isBoolEntry e.2 = true → e.1 ≠ attr) :
    alookup attr (vec2hypers (hypers2vec obj)) = some (Val.str d) := by
  have htr : truthy (Val.str d) = true := decide_eq_true hdne
  have hpc : pyCoerce (Val.str d) = Val.str d := by
    show (if truthy (Val.str d) = true then Val.str d else Val.num 0) = Val.str d
    rw [if_pos htr]
  have hlk : alookup attr (hypers2vecDict obj) = some (Val.str d) := by
    unfold hypers2vecDict
    rw [h2v_lookup attr hhc obj [] hnd, hval]
    show some (pyCoerce (Val.str d)) = some (Val.str d)
    rw [hpc]
  have slotd : slotVal (hypers2vecDict obj) ndName = 1 := by
    rw [slot_onehot ndName attr d heqd, hlk]
    show (if d = d then (1 : ℚ) else 0) = 1
    rw [if_pos rfl]
  have sloto : slotVal (hypers2vecDict obj) otherName = 0 := by
    rw [slot_onehot otherName attr otherVal heqo, hlk]
    show (if d = otherVal then (1 : ℚ) else 0) = 0
    rw [if_neg (fun he => hov he.symm)]
  obtain ⟨A, B, hfeat, hkA, hkB⟩ := name_split ndName featNames hmem hcount
  have hmemA : ∀ n ∈ A, n ∈ featNames := fun n hn => by
    rw [hfeat]; exact List.mem_append_left _ hn
  have hmemB : ∀ n ∈ B, n ∈ featNames := fun n hn => by
    rw [hfeat]; exact List.mem_append_right _ (List.mem_cons_of_mem _ hn)
  have hneA : ∀ n ∈ A, n ≠ ndName := fun n hn he => hkA (he ▸ hn)
  have hneB : ∀ n ∈ B, n ≠ ndName := fun n hn he => hkB (he ▸ hn)
  have hside : ∀ (C : List String), (∀ n ∈ C, n ∈ featNames) → (∀ n ∈ C, n ≠ ndName) →
      ∀ e ∈ ((C.map (fun n => (n, slotVal (hypers2vecDict obj) n))).filter
        (fun e => decide (e.2 ≠ 0))),
        charStartsWith (attr.data ++ ['=']) e.1.data = true → False := by
    intro C hCm hCn e he hpref
    obtain ⟨n, hn, hfn⟩ := List.mem_map.mp (List.mem_of_mem_filter he)
    have hpe : (fun e => decide (e.2 ≠ 0)) e = true := (List.mem_filter.mp he).2
    rw [← hfn] at hpe hpref
    have hnz : slotVal (hypers2vecDict obj) n ≠ 0 := of_decide_eq_true hpe
    have hpref2 : charStartsWith (attr.data ++ ['=']) n.data = true := hpref
    rcases hpre2 n (hCm n hn) hpref2 with h1 | h1
    · exact hCn n hn h1
    · rw [h1] at hnz
      exact hnz sloto
  have hwkC : ∀ (C : List String), (∀ n ∈ C, n ∈ featNames) → (∀ n ∈ C, n ≠ ndName) →
      ∀ e ∈ ((C.map (fun n => (n, slotVal (hypers2vecDict obj) n))).filter
        (fun e => decide (e.2 ≠ 0))),
        wkey e.1 ≠ attr := by
    intro C hCm hCn e he hwa
    refine hside C hCm hCn e he ?_
    obtain ⟨n, hn, hfn⟩ := List.mem_map.mp (List.mem_of_mem_filter he)
    rw [← hfn] at hwa ⊢
    have hwa2 : wkey n = attr := hwa
    exact hwk2 n (hCm n hn) hwa2
  have hvec : hypers2vec obj =
      A.map (fun n => (n, slotVal (hypers2vecDict obj) n)) ++ (ndName, (1 : ℚ)) ::
        B.map (fun n => (n, slotVal (hypers2vecDict obj) n)) := by
    unfold hypers2vec
    rw [hfeat, List.map_append, List.map_cons, slotd]
  have hfilt : (hypers2vec obj).filter (fun e => decide (e.2 ≠ 0)) =
      ((A.map (fun n => (n, slotVal (hypers2vecDict obj) n))).filter
        (fun e => decide (e.2 ≠ 0))) ++ (ndName, (1 : ℚ)) ::
      ((B.map (fun n => (n, slotVal (hypers2vecDict obj) n))).filter
        (fun e => decide (e.2 ≠ 0))) := by
    rw [hvec]
    exact filter_middle_pos _ _ _ _ (by with_unfolding_all rfl)
  have harg : ∀ e ∈ ((A.map (fun n => (n, slotVal (hypers2vecDict obj) n))).filter
        (fun e => decide (e.2 ≠ 0))) ++ (ndName, (1 : ℚ)) ::
      ((B.map (fun n => (n, slotVal (hypers2vecDict obj) n))).filter
        (fun e => decide (e.2 ≠ 0))),
      charStartsWith (attr.data ++ ['=']) e.1.data = true → ¬ (1 : ℚ) < e.2 := by
    intro e he hpref
    rcases List.mem_append.mp he with h3 | h3
    · exact (hside A hmemA hneA e h3 hpref).elim
    · rcases List.mem_cons.mp h3 with h4 | h4
      · rw [h4]
        exact lt_irrefl 1
      · exact (hside B hmemB hneB e h4 hpref).elim
  have halo : alookup attr (outerRun (hypers2vec obj)) = some (Val.str d) := by
    unfold outerRun
    rw [hfilt]
    exact outer_onehot_lookup attr ndName d _ _ heqd (hwkC B hmemB hneB) harg
  rw [vec2hypers_eq]
  have hbp : alookup attr (boolPass (outerRun (hypers2vec obj))) =
      alookup attr (outerRun (hypers2vec obj)) := by
    unfold boolPass
    exact bp_no_write attr hypersNH _ hnb
  rw [hbp]
  exact halo

/-- C4: for every ParameterSpec of kind categorical or boolean (the nine
bool-kind keys and the two categorical keys of this schema) and every
duplicate-free flat record whose value at the spec's key lies in the spec's
declared domain, decoding the encoding of the record (`vec2hypers` after
`hypers2vec`) yields a record whose value at that key equals the original. -/
theorem C4_codec_roundtrip (obj : Flat) (hnd : (obj.map Prod.fst).Nodup) :
    (∀ k ∈ ["keep_last_timestep", "baseline_mode", "indicators", "net.funnel",
        "pct_change", "unimodal", "scale", "punish_repeats", "arbitrage"],
      ∀ b : Bool, alookup k obj = some (Val.bool b) →
        alookup k (vec2hypers (hypers2vec obj)) = some (Val.bool b)) ∧
    (∀ d ∈ ["tanh", "relu"], alookup "net.activation" obj = some (Val.str d) →
      alookup "net.activation" (vec2hypers (hypers2vec obj)) = some (Val.str d)) ∧
    (∀ d ∈ ["adam", "nadam"], alookup "step_optimizer.type" obj = some (Val.str d) →
      alookup "step_optimizer.type" (vec2hypers (hypers2vec obj)) = some (Val.str d)) := by
  refine ⟨?_, ?_, ?_⟩
  · intro k hk b hval
    simp only [List.mem_cons, List.mem_singleton, List.mem_nil_iff, or_false] at hk
    rcases hk with rfl | rfl | rfl | rfl | rfl | rfl | rfl | rfl | rfl
    all_goals
      exact bool_roundtrip _ obj b hnd hval (by with_unfolding_all rfl)
        (of_decide_eq_true (by with_unfolding_all rfl))
        (of_decide_eq_true (by with_unfolding_all rfl))
        (by with_unfolding_all rfl)
        (of_decide_eq_true (by with_unfolding_all rfl))
        (by with_unfolding_all rfl)
        (by with_unfolding_all rfl)
  · intro d hd hval
    simp only [List.mem_cons, List.mem_singleton, List.mem_nil_iff, or_false] at hd
    rcases hd with rfl | rfl
    · exact cat_roundtrip "net.activation" "tanh" "net.activation=tanh"
        "net.activation=relu" "relu" obj hnd hval
        (of_decide_eq_true (by with_unfolding_all rfl))
        (of_decide_eq_true (by with_unfolding_all rfl))
        (by with_unfolding_all rfl)
        (by with_unfolding_all rfl)
        (of_decide_eq_true (by with_unfolding_all rfl))
        (of_decide_eq_true (by with_unfolding_all rfl))
        (by with_unfolding_all rfl)
        (of_decide_eq_true (by with_unfolding_all rfl))
        (of_decide_eq_true (by with_unfolding_all rfl))
        (of_decide_eq_true (by with_unfolding_all rfl))
    · exact cat_roundtrip "net.activation" "relu" "net.activation=relu"
        "net.activation=tanh" "tanh" obj hnd hval
        (of_decide_eq_true (by with_unfolding_all rfl))
        (of_decide_eq_true (by with_unfolding_all rfl))
        (by with_unfolding_all rfl)
        (by with_unfolding_all rfl)
        (of_decide_eq_true (by with_unfolding_all rfl))
        (of_decide_eq_true (by with_unfolding_all rfl))
        (by with_unfolding_all rfl)
        (of_decide_eq_true (by with_unfolding_all rfl))
        (of_decide_eq_true (by with_unfolding_all rfl))
        (of_decide_eq_true (by with_unfolding_all rfl))
  · intro d hd hval
    simp only [List.mem_cons, List.mem_singleton, List.mem_nil_iff, or_false] at hd
    rcases hd with rfl | rfl
    · exact cat_roundtrip "step_optimizer.type" "adam" "step_optimizer.type=adam"
        "step_optimizer.type=nadam" "nadam" obj hnd hval
        (of_decide_eq_true (by with_unfolding_all rfl))
        (of_decide_eq_true (by with_unfolding_all rfl))
        (by with_unfolding_all rfl)
        (by with_unfolding_all rfl)
        (of_decide_eq_true (by with_unfolding_all rfl))
        (of_decide_eq_true (by with_unfolding_all rfl))
        (by with_unfolding_all rfl)
        (of_decide_eq_true (by with_unfolding_all rfl))
        (of_decide_eq_true (by with_unfolding_all rfl))
        (of_decide_eq_true (by with_unfolding_all rfl))
    · exact cat_roundtrip "step_optimizer.type" "nadam" "step_optimizer.type=nadam"
        "step_optimizer.type=adam" "adam" obj hnd hval
        (of_decide_eq_true (by with_unfolding_all rfl))
        (of_decide_eq_true (by with_unfolding_all rfl))
        (by with_unfolding_all rfl)
        (by with_unfolding_all rfl)
        (of_decide_eq_true (by with_unfolding_all rfl))
        (of_decide_eq_true (by with_unfolding_all rfl))
        (by with_unfolding_all rfl)
        (of_decide_eq_true (by with_unfolding_all rfl))
        (of_decide_eq_true (by with_unfolding_all rfl))
        (of_decide_eq_true (by with_unfolding_all rfl))

/-- C4 witness: the round trip at a concrete duplicate-free record holding a
`True` bool, a `False` bool and one value of each categorical domain. -/
theorem C4_codec_roundtrip_witness :
    alookup "scale" (vec2hypers (hypers2vec
      [("scale", Val.bool true), ("pct_change", Val.bool false),
       ("net.activation", Val.str "tanh"), ("step_optimizer.type", Val.str "nadam")])) =
      some (Val.bool true) ∧
    alookup "pct_change" (vec2hypers (hypers2vec
      [("scale", Val.bool true), ("pct_change", Val.bool false),
       ("net.activation", Val.str "tanh"), ("step_optimizer.type", Val.str "nadam")])) =
      some (Val.bool false) ∧
    alookup "net.activation" (vec2hypers (hypers2vec
      [("scale", Val.bool true), ("pct_change", Val.bool false),
       ("net.activation", Val.str "tanh"), ("step_optimizer.type", Val.str "nadam")])) =
      some (Val.str "tanh") ∧
    alookup "step_optimizer.type" (vec2hypers (hypers2vec
      [("scale", Val.bool true), ("pct_change", Val.bool false),
       ("net.activation", Val.str "tanh"), ("step_optimizer.type", Val.str "nadam")])) =
      some (Val.str "nadam") := by
  have h := C4_codec_roundtrip
    [("scale", Val.bool true), ("pct_change", Val.bool false),
     ("net.activation", Val.str "tanh"), ("step_optimizer.type", Val.str "nadam")]
    (by with_unfolding_all decide)
  exact ⟨h.1 "scale" (by simp) true (by with_unfolding_all rfl),
         h.1 "pct_change" (by simp) false (by with_unfolding_all rfl),
         h.2.1 "tanh" (by simp) (by with_unfolding_all rfl),
         h.2.2 "nadam" (by simp) (by with_unfolding_all rfl)⟩

end Hypersearch
